import Mathlib

/-!
Shallow embedding of the fse_dump FSEvents decoder (src/file_parser.rs,
src/version.rs, src/flags.rs, src/record.rs, src/uniques.rs, src/main.rs)
and proofs about its specification claims.

Byte streams are modelled as `List Nat` (each element one byte).  Reader
operations mirror the `std::io` primitives the source uses:
`read_exact` (fails with `UnexpectedEof` on a short read) and
`read_until(b'\0')` (consumes up to and including the first NUL, or the
whole remaining stream when no NUL occurs before end of stream).
-/

namespace FseDump

/-- Models `Read::read_exact` for `n` bytes: returns the bytes read and the
rest of the stream, or `none` for the `UnexpectedEof` error when fewer than
`n` bytes remain. -/
def readExact (n : Nat) (input : List Nat) : Option (List Nat × List Nat) :=
  if n ≤ input.length then some (input.take n, input.drop n) else none

/-- Models `BufRead::read_until(b'\0')`: consumes bytes up to and including
the first `0` byte; when no `0` occurs, consumes the whole stream.  Returns
(bytes consumed, rest of stream). -/
def readUntil0 : List Nat → (List Nat × List Nat)
  | [] => ([], [])
  | b :: rest =>
    if b = 0 then ([0], rest)
    else
      let p := readUntil0 rest
      (b :: p.1, p.2)

/-- Big-endian value of a byte list (as read by `read_u64::<BigEndian>` /
`read_u32::<BigEndian>`). -/
def beVal (bs : List Nat) : Nat := bs.foldl (fun acc b => acc * 256 + b) 0

/-- Little-endian value of a byte list (as read by `read_u64::<LittleEndian>` /
`read_u32::<LittleEndian>`). -/
def leVal (bs : List Nat) : Nat := bs.foldr (fun b acc => acc * 256 + b) 0

/-- Big-endian encoding of `v` in `n` bytes (test-fixture encoder, the
inverse of `beVal`, mirroring `u64::to_be_bytes` in the repo's tests). -/
def beBytes : Nat → Nat → List Nat
  | 0, _ => []
  | n + 1, v => beBytes n (v / 256) ++ [v % 256]

/-- Little-endian encoding of `v` in `n` bytes (inverse of `leVal`,
mirroring `u64::to_le_bytes` in the repo's tests). -/
def leBytes : Nat → Nat → List Nat
  | 0, _ => []
  | n + 1, v => v % 256 :: leBytes n (v / 256)

theorem beBytes_length (n v : Nat) : (beBytes n v).length = n := by
  induction n generalizing v with
  | zero => rfl
  | succ n ih => simp [beBytes, ih]

theorem leBytes_length (n v : Nat) : (leBytes n v).length = n := by
  induction n generalizing v with
  | zero => rfl
  | succ n ih => simp [leBytes, ih]

theorem beVal_append_single (l : List Nat) (b : Nat) :
    beVal (l ++ [b]) = beVal l * 256 + b := by
  simp [beVal]

theorem beVal_beBytes (n v : Nat) : beVal (beBytes n v) = v % 256 ^ n := by
  induction n generalizing v with
  | zero => simp [beBytes, beVal, Nat.mod_one]
  | succ n ih =>
    rw [beBytes, beVal_append_single, ih]
    rw [pow_succ, mul_comm (256 ^ n) 256, Nat.mod_mul]
    ring

theorem leVal_cons (b : Nat) (l : List Nat) : leVal (b :: l) = leVal l * 256 + b := rfl

theorem leVal_leBytes (n v : Nat) : leVal (leBytes n v) = v % 256 ^ n := by
  induction n generalizing v with
  | zero => simp [leBytes, leVal, Nat.mod_one]
  | succ n ih =>
    rw [leBytes, leVal_cons, ih]
    rw [pow_succ, mul_comm (256 ^ n) 256, Nat.mod_mul]
    ring

theorem readExact_append (bs rest : List Nat) :
    readExact bs.length (bs ++ rest) = some (bs, rest) := by
  simp [readExact, List.take_left, List.drop_left]

theorem readExact_none (n : Nat) (input : List Nat) (h : input.length < n) :
    readExact n input = none := by
  simp [readExact]; omega

theorem readUntil0_append (path rest : List Nat) (h : ∀ b ∈ path, b ≠ 0) :
    readUntil0 (path ++ [0] ++ rest) = (path ++ [0], rest) := by
  induction path with
  | nil => simp [readUntil0]
  | cons b bs ih =>
    have hb : b ≠ 0 := h b (List.mem_cons_self b bs)
    have ih' := ih (fun x hx => h x (List.mem_cons_of_mem b hx))
    simp only [List.append_assoc, List.singleton_append] at ih' ⊢
    simp [readUntil0, hb, ih']

theorem readUntil0_no_zero (l : List Nat) (h : ∀ b ∈ l, b ≠ 0) :
    readUntil0 l = (l, []) := by
  induction l with
  | nil => simp [readUntil0]
  | cons b bs ih =>
    have hb : b ≠ 0 := h b (List.mem_cons_self b bs)
    have ih' := ih (fun x hx => h x (List.mem_cons_of_mem b hx))
    simp [readUntil0, hb, ih']

/-! ### src/flags.rs -/

/-- The fixed separator `FLAG_SEP` from src/flags.rs. -/
def FLAG_SEP : String := " | "

/-- The `FLAGS` table from src/flags.rs, in its declaration order. -/
def FLAGS : List (String × Nat) := [
  ("FolderEvent", 0x00000001),
  ("Mount", 0x00000002),
  ("Unmount", 0x00000004),
  ("EndOfTransaction", 0x00000020),
  ("LastHardLinkRemoved", 0x00000800),
  ("HardLink", 0x00001000),
  ("SymbolicLink", 0x00004000),
  ("FileEvent", 0x00008000),
  ("PermissionChange", 0x00010000),
  ("ExtendedAttrModified", 0x00020000),
  ("ExtendedAttrRemoved", 0x00040000),
  ("DocumentRevisioning", 0x00100000),
  ("ItemCloned", 0x00400000),
  ("Created", 0x01000000),
  ("Removed", 0x02000000),
  ("InodeMetaMod", 0x04000000),
  ("Renamed", 0x08000000),
  ("Modified", 0x10000000),
  ("Exchange", 0x20000000),
  ("FinderInfoMod", 0x40000000),
  ("FolderCreated", 0x80000000)]

/-- The loop body of `flags::bits_to_str`: walks the flag table in
declaration order and appends each set flag's name, preceded by
`FLAG_SEP` when the accumulator is nonempty. -/
def bitsToStrAux (bits : Nat) : List (String × Nat) → String → String
  | [], acc => acc
  | (name, num) :: rest, acc =>
    if bits &&& num = num then
      bitsToStrAux bits rest ((if acc = "" then acc else acc ++ FLAG_SEP) ++ name)
    else
      bitsToStrAux bits rest acc

/-- Embeds `flags::bits_to_str` (the `norm` string; the `alt_flags`
feature is off in the default build). -/
def bitsToStr (bits : Nat) : String := bitsToStrAux bits FLAGS ""

/-- The initial contents of the `FLAG_MAP` cache built in
`flags::flag_map`: `0` maps to the empty string and each single flag value
maps to its name. -/
def initFlagMap : List (Nat × String) :=
  (0, "") :: FLAGS.map (fun p => (p.2, p.1))

/-- Embeds `flags::parse_bits`.  The concurrent cache is modelled
transparently: a hit returns the cached string, a miss computes
`bits_to_str` (which is also what the code inserts into the cache, so
later hits return the same text). -/
def parseBits (bits : Nat) : String :=
  match initFlagMap.lookup bits with
  | some s => s
  | none => bitsToStr bits

/-- Models `str::eq_ignore_ascii_case` on a character: ASCII uppercase
letters are lowered, everything else is unchanged. -/
def asciiLowerChar (c : Char) : Char :=
  if 'A' ≤ c ∧ c ≤ 'Z' then Char.ofNat (c.toNat + 32) else c

/-- The ASCII-lowercased character sequence of a string; two strings are
`eq_ignore_ascii_case`-equal exactly when their images under this map
coincide. -/
def lowerStr (s : String) : List Char := s.data.map asciiLowerChar

/-- Models `str::eq_ignore_ascii_case` (bytewise ASCII case-insensitive
comparison, phrased as equality of the lowercased character sequences). -/
def eqIgnoreAsciiCase (a b : String) : Bool := lowerStr a == lowerStr b

/-- Embeds `flags::flag_id`: first table entry whose name matches
case-insensitively wins. -/
def flagId (want : String) : Option Nat :=
  FLAGS.findSome? fun p => if eqIgnoreAsciiCase p.1 want then some p.2 else none

/-! Spec-side rendering used to state C6: the names of the set flags in
table order, joined by the fixed separator. -/

/-- The flag names of `l` whose bits are all set in `bits`, in table
order. -/
def setFlags (bits : Nat) (l : List (String × Nat)) : List String :=
  (l.filter fun p => bits &&& p.2 == p.2).map Prod.fst

/-- Joins strings with the fixed separator (spec-side definition for C6). -/
def joinSep : List String → String
  | [] => ""
  | [x] => x
  | x :: y :: xs => x ++ FLAG_SEP ++ joinSep (y :: xs)

/-- Concatenation of separator-prefixed names (helper for the
accumulator-style proof about `bitsToStrAux`). -/
def sepTail : List String → String
  | [] => ""
  | x :: xs => FLAG_SEP ++ x ++ sepTail xs

theorem str_append_ne_empty_right (a b : String) (h : b ≠ "") : a ++ b ≠ "" := by
  intro hab
  apply h
  apply String.ext
  have hd := congrArg String.data hab
  rw [String.data_append] at hd
  exact (List.append_eq_nil.mp hd).2

theorem str_append_ne_empty_left (a b : String) (h : a ≠ "") : a ++ b ≠ "" := by
  intro hab
  apply h
  apply String.ext
  have hd := congrArg String.data hab
  rw [String.data_append] at hd
  exact (List.append_eq_nil.mp hd).1

theorem flag_sep_ne_empty : FLAG_SEP ≠ "" := by decide

theorem joinSep_cons (x : String) (xs : List String) :
    joinSep (x :: xs) = x ++ sepTail xs := by
  induction xs generalizing x with
  | nil => simp [joinSep, sepTail]
  | cons y ys ih =>
    rw [joinSep, ih y, sepTail, String.append_assoc, String.append_assoc]

theorem bitsToStrAux_ne_empty (bits : Nat) (l : List (String × Nat)) (acc : String)
    (h : acc ≠ "") :
    bitsToStrAux bits l acc = acc ++ sepTail (setFlags bits l) := by
  induction l generalizing acc with
  | nil => simp [bitsToStrAux, setFlags, sepTail]
  | cons p rest ih =>
    obtain ⟨name, num⟩ := p
    by_cases hm : bits &&& num = num
    · have hne : (acc ++ FLAG_SEP) ++ name ≠ "" :=
        str_append_ne_empty_left _ _ (str_append_ne_empty_right _ _ flag_sep_ne_empty)
      rw [bitsToStrAux, if_pos hm, if_neg h, ih _ hne]
      have hs : setFlags bits ((name, num) :: rest) = name :: setFlags bits rest := by
        simp [setFlags, hm]
      rw [hs, sepTail, String.append_assoc, String.append_assoc, String.append_assoc]
    · rw [bitsToStrAux, if_neg hm, ih _ h]
      have hs : setFlags bits ((name, num) :: rest) = setFlags bits rest := by
        simp [setFlags, hm]
      rw [hs]

theorem bitsToStrAux_empty_acc (bits : Nat) (l : List (String × Nat))
    (hl : ∀ p ∈ l, p.1 ≠ "") :
    bitsToStrAux bits l "" = joinSep (setFlags bits l) := by
  induction l with
  | nil => simp [bitsToStrAux, setFlags, joinSep]
  | cons p rest ih =>
    obtain ⟨name, num⟩ := p
    have hname : name ≠ "" := hl (name, num) (List.mem_cons_self _ _)
    have hrest : ∀ p ∈ rest, p.1 ≠ "" := fun p hp => hl p (List.mem_cons_of_mem _ hp)
    by_cases hm : bits &&& num = num
    · have hs : setFlags bits ((name, num) :: rest) = name :: setFlags bits rest := by
        simp [setFlags, hm]
      rw [bitsToStrAux, if_pos hm, if_pos rfl, String.empty_append,
        bitsToStrAux_ne_empty bits rest name hname, hs, joinSep_cons]
    · have hs : setFlags bits ((name, num) :: rest) = setFlags bits rest := by
        simp [setFlags, hm]
      rw [bitsToStrAux, if_neg hm, ih hrest, hs]

theorem flags_names_ne_empty : ∀ p ∈ FLAGS, p.1 ≠ "" := by decide

theorem initFlagMap_consistent : ∀ p ∈ initFlagMap, bitsToStr p.1 = p.2 := by decide

theorem lookup_mem (l : List (Nat × String)) (k : Nat) (v : String)
    (h : l.lookup k = some v) : (k, v) ∈ l := by
  induction l with
  | nil => simp [List.lookup] at h
  | cons p rest ih =>
    obtain ⟨a, b⟩ := p
    by_cases hk : k = a
    · subst hk
      simp [List.lookup] at h
      simp [h]
    · have hne : (k == a) = false := by simp [hk]
      simp only [List.lookup, hne] at h
      exact List.mem_cons_of_mem _ (ih h)

theorem parseBits_eq_bitsToStr (bits : Nat) : parseBits bits = bitsToStr bits := by
  unfold parseBits
  cases h : initFlagMap.lookup bits with
  | none => rfl
  | some s =>
    have hmem : (bits, s) ∈ initFlagMap := lookup_mem _ _ _ h
    exact (initFlagMap_consistent (bits, s) hmem).symm

theorem flags_lower_distinct :
    FLAGS.Pairwise fun p q => lowerStr p.1 ≠ lowerStr q.1 := by decide

theorem findSome_flag (l : List (String × Nat))
    (hdist : l.Pairwise fun p q => lowerStr p.1 ≠ lowerStr q.1)
    (name : String) (bits : Nat) (hmem : (name, bits) ∈ l)
    (s : String) (hs : lowerStr s = lowerStr name) :
    (l.findSome? fun p => if eqIgnoreAsciiCase p.1 s then some p.2 else none) = some bits := by
  induction l with
  | nil => simp at hmem
  | cons p rest ih =>
    obtain ⟨n0, b0⟩ := p
    rcases List.mem_cons.mp hmem with heq | hmem'
    · cases heq
      have hmatch : eqIgnoreAsciiCase name s = true := by
        simp [eqIgnoreAsciiCase, hs]
      simp [List.findSome?_cons, hmatch]
    · have hd := (List.pairwise_cons.mp hdist).1 (name, bits) hmem'
      have hhead : eqIgnoreAsciiCase n0 s = false := by
        simp only [eqIgnoreAsciiCase, beq_eq_false_iff_ne, ne_eq, hs]
        exact hd
      have ih' := ih ((List.pairwise_cons.mp hdist).2) hmem'
      simp [List.findSome?_cons, hhead, ih']

theorem findSome_flag_none (l : List (String × Nat)) (s : String)
    (h : ∀ p ∈ l, lowerStr s ≠ lowerStr p.1) :
    (l.findSome? fun p => if eqIgnoreAsciiCase p.1 s then some p.2 else none) = none := by
  induction l with
  | nil => rfl
  | cons p rest ih =>
    have hp : lowerStr s ≠ lowerStr p.1 := h p (List.mem_cons_self _ _)
    have hmatch : eqIgnoreAsciiCase p.1 s = false := by
      simp only [eqIgnoreAsciiCase, beq_eq_false_iff_ne, ne_eq]
      exact fun hc => hp hc.symm
    have ih' := ih fun q hq => h q (List.mem_cons_of_mem _ hq)
    simp [List.findSome?_cons, hmatch, ih']

/-! ### src/record.rs and src/version.rs -/

/-- Embeds `record::Record` (default build: no `alt_flags`, no `extra_id`
feature).  `path` keeps the raw bytes read before the NUL terminator; the
`String::from_utf8_lossy` presentation step is not modelled.  Timestamps
(`jiff::Timestamp`) are modelled as integers. -/
structure Record where
  path : List Nat
  event_id : Nat
  flag : Nat
  flags : String
  node_id : Option Nat
  file_timestamp : Option Int
deriving Repr, DecidableEq

/-- Embeds `version::Version`. -/
inductive Version
  | Ver1
  | Ver2
  | Ver3
deriving Repr, DecidableEq

/-- `RecordParser::HAS_NODEID` from the V1/V2/V3 impls in src/version.rs. -/
def Version.hasNodeId : Version → Bool
  | .Ver1 => false
  | .Ver2 => true
  | .Ver3 => true

/-- `RecordParser::HAS_UNKNOWN_NUM` from the V1/V2/V3 impls in
src/version.rs. -/
def Version.hasUnknownNum : Version → Bool
  | .Ver1 => false
  | .Ver2 => false
  | .Ver3 => true

/-- The 4-byte magic tags: `V1_BYTES` = "1SLD", `V2_BYTES` = "2SLD",
`V3_BYTES` = "3SLD" (ASCII bytes). -/
def Version.tag : Version → List Nat
  | .Ver1 => [0x31, 0x53, 0x4C, 0x44]
  | .Ver2 => [0x32, 0x53, 0x4C, 0x44]
  | .Ver3 => [0x33, 0x53, 0x4C, 0x44]

/-- The tag-to-version mapping of `Version::from_reader`. -/
def versionFromBytes (b : List Nat) : Option Version :=
  if b = Version.tag .Ver1 then some .Ver1
  else if b = Version.tag .Ver2 then some .Ver2
  else if b = Version.tag .Ver3 then some .Ver3
  else none

/-- Embeds `Version::from_reader`: reads exactly 4 bytes.  `none` models
the `UnexpectedEof` io error of `read_exact`; `some (none, rest)` models
`Ok(None)` for an unrecognized tag. -/
def versionFromReader (input : List Nat) : Option (Option Version × List Nat) :=
  (readExact 4 input).map fun p => (versionFromBytes p.1, p.2)

/-- The error cases of `parse_file`: propagated `UnexpectedEof` io errors
from short reads, plus the two `eyre!` errors it raises itself. -/
inductive ParseErr
  | unexpectedEof
  | unsupportedVersion
  | lengthMismatch
deriving Repr, DecidableEq

/-- `read_exact` lifted into the error monad: a short read is the
`UnexpectedEof` io error. -/
def readExactE (n : Nat) (input : List Nat) : Except ParseErr (List Nat × List Nat) :=
  match readExact n input with
  | none => .error .unexpectedEof
  | some p => .ok p

/-- Embeds `RecordParser::parse_record` (src/version.rs): read the
NUL-terminated path (no terminator or nothing read means end of records:
`Ok(None)`), then the big-endian `event_id` (u64) and `flag` (u32), then,
per version, the little-endian `node_id` (u64) and the 4 unknown trailing
bytes.  Returns the consumed byte count `tlen` alongside the record.  The
native-endian read of the unknown bytes only skips them (the `extra_id`
feature is off), so their endianness does not matter here. -/
def parseRecord (hasNode hasExtra : Bool) (input : List Nat) :
    Except ParseErr (Option (Nat × Record) × List Nat) := do
  let p := readUntil0 input
  let sbuf := p.1
  let rlen := sbuf.length
  if rlen = 0 ∨ sbuf.getLast? ≠ some 0 then
    return (none, p.2)
  else
    let eb ← readExactE 8 p.2
    let fb ← readExactE 4 eb.2
    let st1 ←
      if hasNode then do
        let nb ← readExactE 8 fb.2
        pure (some (leVal nb.1), rlen + 12 + 8, nb.2)
      else
        pure ((none : Option Nat), rlen + 12, fb.2)
    let st2 ←
      if hasExtra then do
        let xb ← readExactE 4 st1.2.2
        pure (st1.2.1 + 4, xb.2)
      else
        pure (st1.2.1, st1.2.2)
    return (some (st2.1,
      { path := sbuf.dropLast
        event_id := beVal eb.1
        flag := beVal fb.1
        flags := parseBits (beVal fb.1)
        node_id := st1.1
        file_timestamp := none }), st2.2)

/-- Embeds `record::RecordFilter`.  The compiled `regex::Regex` is
modelled as an abstract boolean predicate on the path bytes
(`Regex::is_match`). -/
structure Filter where
  pathRex : Option (List Nat → Bool)
  anyFlag : Nat
  allFlag : Nat

/-- Embeds `RecordFilter::match_path`. -/
def Filter.matchPath (f : Filter) (rec : Record) : Bool :=
  match f.pathRex with
  | none => true
  | some rex => rex rec.path

/-- Embeds `RecordFilter::match_flags`. -/
def Filter.matchFlags (f : Filter) (rec : Record) (flags : Nat) (any : Bool) : Bool :=
  if flags > 0 then
    let diff := flags &&& rec.flag
    if any then decide (diff > 0) else decide (diff = flags)
  else true

/-- Embeds `RecordFilter::want`. -/
def Filter.want (f : Filter) (rec : Record) : Bool :=
  f.matchFlags rec f.anyFlag true && f.matchFlags rec f.allFlag false && f.matchPath rec

theorem matchFlags_any_iff (f : Filter) (rec : Record) (flags : Nat) :
    (f.matchFlags rec flags true = true) ↔ (flags = 0 ∨ flags &&& rec.flag ≠ 0) := by
  unfold Filter.matchFlags
  by_cases h : flags > 0 <;> simp [h] <;> omega

theorem matchFlags_all_iff (f : Filter) (rec : Record) (flags : Nat) :
    (f.matchFlags rec flags false = true) ↔ (flags = 0 ∨ rec.flag &&& flags = flags) := by
  unfold Filter.matchFlags
  by_cases h : flags > 0
  · rw [if_pos h]
    show (decide (flags &&& rec.flag = flags) = true) ↔ _
    rw [Nat.land_comm]
    simp only [decide_eq_true_eq]
    constructor
    · exact fun hx => Or.inr hx
    · intro hor
      rcases hor with h0 | hx
      · omega
      · exact hx
  · simp [h]
    omega

theorem matchPath_iff (f : Filter) (rec : Record) :
    (f.matchPath rec = true) ↔
      (match f.pathRex with
       | none => True
       | some rex => rex rec.path = true) := by
  unfold Filter.matchPath
  cases f.pathRex <;> simp

/-- C7: `RecordFilter::want` accepts a record exactly when the any-mask is
zero or intersects the record's flag bits, and the all-mask is zero or
contained in the record's flag bits, and the path regex is absent or
matches the record's path. -/
theorem recordFilter_want_iff (f : Filter) (rec : Record) :
    f.want rec = true ↔
      ((f.anyFlag = 0 ∨ f.anyFlag &&& rec.flag ≠ 0) ∧
       (f.allFlag = 0 ∨ rec.flag &&& f.allFlag = f.allFlag) ∧
       (match f.pathRex with
        | none => True
        | some rex => rex rec.path = true)) := by
  unfold Filter.want
  simp only [Bool.and_eq_true]
  rw [and_assoc]
  exact and_congr (matchFlags_any_iff f rec f.anyFlag)
    (and_congr (matchFlags_all_iff f rec f.allFlag) (matchPath_iff f rec))

/-- `read_exact` on a stream whose prefix has exactly the requested
length. -/
theorem readExact_encoded (n : Nat) (bs rest : List Nat) (h : bs.length = n) :
    readExact n (bs ++ rest) = some (bs, rest) := by
  subst h; exact readExact_append bs rest

/-- On-disk encoding of one record for version `v` (test-fixture encoder,
mirroring the hand-built blobs in the src/version.rs tests). -/
def encodeRecord (v : Version) (path : List Nat) (eid flag nid extra : Nat) : List Nat :=
  path ++ [0] ++ beBytes 8 eid ++ beBytes 4 flag ++
  (if v.hasNodeId then leBytes 8 nid else []) ++
  (if v.hasUnknownNum then leBytes 4 extra else [])

/-- The expected on-disk byte count of a record: path length including the
NUL, plus 8 (event id) plus 4 (flags), plus 8 for versions with a node id,
plus 4 for version 3's unknown trailing bytes. -/
def recordSize (v : Version) (pathLen : Nat) : Nat :=
  pathLen + 1 + 8 + 4 + (if v.hasNodeId then 8 else 0) + (if v.hasUnknownNum then 4 else 0)

/-- Round-trip of `parse_record` on a well-formed encoded record blob
(shared helper behind the C5 statement and the page lemmas). -/
theorem parseRecord_decode (v : Version) (path : List Nat) (eid flag nid extra : Nat)
    (rest : List Nat) (hpath : ∀ b ∈ path, b ≠ 0)
    (heid : eid < 2 ^ 64) (hflag : flag < 2 ^ 32) (hnid : nid < 2 ^ 64) :
    parseRecord v.hasNodeId v.hasUnknownNum (encodeRecord v path eid flag nid extra ++ rest) =
      .ok (some (recordSize v path.length,
        { path := path
          event_id := eid
          flag := flag
          flags := parseBits flag
          node_id := if v.hasNodeId then some nid else none
          file_timestamp := none }), rest) ∧
    ((if v.hasNodeId then some nid else (none : Option Nat)).isSome = true ↔
      (v = .Ver2 ∨ v = .Ver3)) := by
  have h8 : (256 : Nat) ^ 8 = 2 ^ 64 := by norm_num
  have h4 : (256 : Nat) ^ 4 = 2 ^ 32 := by norm_num
  have hmod8 : eid % 256 ^ 8 = eid := by rw [h8]; exact Nat.mod_eq_of_lt heid
  have hmod4 : flag % 256 ^ 4 = flag := by rw [h4]; exact Nat.mod_eq_of_lt hflag
  have hmodn : nid % 256 ^ 8 = nid := by rw [h8]; exact Nat.mod_eq_of_lt hnid
  cases v with
  | Ver1 =>
    have hsplit : encodeRecord .Ver1 path eid flag nid extra ++ rest =
        path ++ [0] ++ (beBytes 8 eid ++ (beBytes 4 flag ++ rest)) := by
      simp [encodeRecord, Version.hasNodeId, Version.hasUnknownNum]
    refine ⟨?_, by simp [Version.hasNodeId]⟩
    rw [hsplit]
    unfold parseRecord
    rw [readUntil0_append _ _ hpath]
    simp [readExactE, readExact_encoded, beBytes_length, List.getLast?_concat,
      beVal_beBytes, hmod8, hmod4, Version.hasNodeId, Version.hasUnknownNum,
      recordSize, List.dropLast_concat, bind, Except.bind, pure, Except.pure,
      Functor.map, Except.map]
    have hf : flag % 4294967296 = flag := by omega
    simp [hf]
    try omega
  | Ver2 =>
    have hsplit : encodeRecord .Ver2 path eid flag nid extra ++ rest =
        path ++ [0] ++ (beBytes 8 eid ++ (beBytes 4 flag ++ (leBytes 8 nid ++ rest))) := by
      simp [encodeRecord, Version.hasNodeId, Version.hasUnknownNum]
    refine ⟨?_, by simp [Version.hasNodeId]⟩
    rw [hsplit]
    unfold parseRecord
    rw [readUntil0_append _ _ hpath]
    simp [readExactE, readExact_encoded, beBytes_length, leBytes_length,
      List.getLast?_concat, beVal_beBytes, leVal_leBytes, hmod8, hmod4, hmodn,
      Version.hasNodeId, Version.hasUnknownNum, recordSize, List.dropLast_concat,
      bind, Except.bind, pure, Except.pure, Functor.map, Except.map]
    have hf : flag % 4294967296 = flag := by omega
    simp [hf]
    try omega
  | Ver3 =>
    have hsplit : encodeRecord .Ver3 path eid flag nid extra ++ rest =
        path ++ [0] ++
          (beBytes 8 eid ++ (beBytes 4 flag ++ (leBytes 8 nid ++ (leBytes 4 extra ++ rest)))) := by
      simp [encodeRecord, Version.hasNodeId, Version.hasUnknownNum]
    refine ⟨?_, by simp [Version.hasNodeId]⟩
    rw [hsplit]
    unfold parseRecord
    rw [readUntil0_append _ _ hpath]
    simp [readExactE, readExact_encoded, beBytes_length, leBytes_length,
      List.getLast?_concat, beVal_beBytes, leVal_leBytes, hmod8, hmod4, hmodn,
      Version.hasNodeId, Version.hasUnknownNum, recordSize, List.dropLast_concat,
      bind, Except.bind, pure, Except.pure, Functor.map, Except.map]
    have hf : flag % 4294967296 = flag := by omega
    simp [hf]
    try omega

/-- C5: decoding a well-formed record blob for any version yields the
NUL-terminated path bytes, the 8-byte big-endian `event_id`, the 4-byte
big-endian `flag` bitmask, the little-endian `node_id` for versions 2 and
3 (and skips 4 more bytes for version 3); the consumed byte count is the
path length including the NUL plus 8 plus 4, plus 8 for versions ≥ 2,
plus 4 for version 3; and `node_id` is `some` exactly for versions ≥ 2. -/
theorem parseRecord_layout (v : Version) (path : List Nat) (eid flag nid extra : Nat)
    (rest : List Nat) (hpath : ∀ b ∈ path, b ≠ 0)
    (heid : eid < 2 ^ 64) (hflag : flag < 2 ^ 32) (hnid : nid < 2 ^ 64) :
    parseRecord v.hasNodeId v.hasUnknownNum (encodeRecord v path eid flag nid extra ++ rest) =
      .ok (some (recordSize v path.length,
        { path := path
          event_id := eid
          flag := flag
          flags := parseBits flag
          node_id := if v.hasNodeId then some nid else none
          file_timestamp := none }), rest) ∧
    ((if v.hasNodeId then some nid else (none : Option Nat)).isSome = true ↔
      (v = .Ver2 ∨ v = .Ver3)) :=
  parseRecord_decode v path eid flag nid extra rest hpath heid hflag hnid

/-- Witness for C5: a concrete version-3 blob with path "/x", event id
0x42, flag bits 0x10000000, node id 0x1234 and unknown bytes 0x5678. -/
theorem parseRecord_layout_witness :
    parseRecord Version.Ver3.hasNodeId Version.Ver3.hasUnknownNum
        (encodeRecord .Ver3 [47, 120] 0x42 0x10000000 0x1234 0x5678 ++ []) =
      .ok (some (recordSize .Ver3 ([47, 120] : List Nat).length,
        { path := [47, 120]
          event_id := 0x42
          flag := 0x10000000
          flags := parseBits 0x10000000
          node_id := if Version.Ver3.hasNodeId then some 0x1234 else none
          file_timestamp := none }), []) ∧
    ((if Version.Ver3.hasNodeId then some 0x1234 else (none : Option Nat)).isSome = true ↔
      (Version.Ver3 = .Ver2 ∨ Version.Ver3 = .Ver3)) :=
  parseRecord_layout .Ver3 [47, 120] 0x42 0x10000000 0x1234 0x5678 []
    (by decide) (by norm_num) (by norm_num) (by norm_num)

/-! ### src/file_parser.rs -/

/-- The inner record loop of `parse_file` (src/file_parser.rs lines
75-107): decode records, add each yielded record's byte count to `read`,
and after every record compare `read` with the declared page length
(`p_len`): equal closes the page (still filtering/broadcasting the
terminal record), greater is the page-length-mismatch error, less
continues.  A record is appended to the broadcast list only when the
filter `want` accepts it.  The returned triple is the final consumed
count, the broadcast records of this page in order, and the rest of the
stream.  `fuel` bounds the iteration count; every successfully parsed
record consumes at least 13 bytes, so any fuel exceeding the stream
length behaves like the source's unbounded loop. -/
def pageLoop (v : Version) (want : Record → Bool) (pLen : Nat) :
    Nat → Nat → List Nat → Except ParseErr (Nat × List Record × List Nat)
  | 0, _, _ => .error .unexpectedEof
  | fuel + 1, read, input =>
    match parseRecord v.hasNodeId v.hasUnknownNum input with
    | .error e => .error e
    | .ok (none, rest) => .ok (read, [], rest)
    | .ok (some (s, rec), rest) =>
      if read + s ≥ pLen then
        if read + s = pLen then
          .ok (read + s, if want rec then [rec] else [], rest)
        else
          .error .lengthMismatch
      else
        if want rec then
          match pageLoop v want pLen fuel (read + s) rest with
          | .error e => .error e
          | .ok (r, recs, rest') => .ok (r, rec :: recs, rest')
        else
          pageLoop v want pLen fuel (read + s) rest

/-- The filter-independent skeleton of the inner record loop: every
record the decoder yields for the page, with its byte count, in order
(spec-side projection used to state C1). -/
def pageYield (v : Version) (pLen : Nat) :
    Nat → Nat → List Nat → Except ParseErr (List (Nat × Record) × List Nat)
  | 0, _, _ => .error .unexpectedEof
  | fuel + 1, read, input =>
    match parseRecord v.hasNodeId v.hasUnknownNum input with
    | .error e => .error e
    | .ok (none, rest) => .ok ([], rest)
    | .ok (some (s, rec), rest) =>
      if read + s ≥ pLen then
        if read + s = pLen then .ok ([(s, rec)], rest)
        else .error .lengthMismatch
      else
        match pageYield v pLen fuel (read + s) rest with
        | .error e => .error e
        | .ok (ys, rest') => .ok ((s, rec) :: ys, rest')

/-- The outer page loop of `parse_file` (src/file_parser.rs lines
45-108): read the 4-byte version tag (`UnexpectedEof` here is the normal
end of input and yields `Ok`), fail on an unrecognized tag, skip 4
reserved bytes, read the little-endian page length, seed the consumed
count with 12 (the header size) and run the record loop; then continue
with the next page. -/
def fileLoop (want : Record → Bool) : Nat → List Nat → Except ParseErr (List Record)
  | 0, _ => .error .unexpectedEof
  | fuel + 1, input =>
    match versionFromReader input with
    | none => .ok []
    | some (none, _) => .error .unsupportedVersion
    | some (some v, rest) =>
      match readExactE 4 rest with
      | .error e => .error e
      | .ok (_, rest1) =>
        match readExactE 4 rest1 with
        | .error e => .error e
        | .ok (lb, rest2) =>
          match pageLoop v want (leVal lb) (rest2.length + 1) 12 rest2 with
          | .error e => .error e
          | .ok (_, recs, rest3) =>
            match fileLoop want fuel rest3 with
            | .error e => .error e
            | .ok recs2 => .ok (recs ++ recs2)

/-- Embeds `file_parser::parse_file` over an in-memory byte stream (the
gzip wrapper and `BufReader` are external collaborators).  The broadcast
bus is modelled by returning the list of broadcast records in order;
errors are the function's `Err` results. -/
def parseFile (want : Record → Bool) (input : List Nat) : Except ParseErr (List Record) :=
  fileLoop want (input.length + 1) input

/-- C1: during page framing, every record the decoder yields contributes
its byte count to the page's consumed accounting regardless of the filter
outcome (including the terminal record that makes the count reach the
declared length); the filter outcome only decides membership in the
broadcast list. -/
theorem pageLoop_counts_all_filters_broadcast (v : Version) (want : Record → Bool)
    (pLen fuel read : Nat) (input : List Nat) :
    pageLoop v want pLen fuel read input =
      (pageYield v pLen fuel read input).map
        (fun p => (read + (p.1.map Prod.fst).sum, (p.1.map Prod.snd).filter want, p.2)) := by
  induction fuel generalizing read input with
  | zero => rfl
  | succ fuel ih =>
    rw [pageLoop, pageYield]
    cases hpr : parseRecord v.hasNodeId v.hasUnknownNum input with
    | error e => rfl
    | ok res =>
      obtain ⟨o, rest⟩ := res
      cases o with
      | none => simp [Except.map]
      | some sr =>
        obtain ⟨s, rec⟩ := sr
        dsimp only
        by_cases hge : read + s ≥ pLen
        · rw [if_pos hge, if_pos hge]
          by_cases heq : read + s = pLen
          · rw [if_pos heq, if_pos heq]
            cases hw : want rec <;> simp [Except.map, hw]
          · rw [if_neg heq, if_neg heq]; rfl
        · rw [if_neg hge, if_neg hge]
          cases hw : want rec
          · rw [if_neg (by simp [hw]), ih]
            cases hy : pageYield v pLen fuel (read + s) rest with
            | error e => rfl
            | ok p =>
              obtain ⟨ys, rest'⟩ := p
              simp [Except.map, hw, Nat.add_assoc]
          · rw [if_pos (by simp [hw]), ih]
            cases hy : pageYield v pLen fuel (read + s) rest with
            | error e => rfl
            | ok p =>
              obtain ⟨ys, rest'⟩ := p
              simp [Except.map, hw, Nat.add_assoc]

/-- C3: after each decoded record, the framer compares the running
consumed count against the declared page length: equal closes the page
cleanly (the terminal record is still filtered and conditionally
broadcast), greater returns the fatal page-length-mismatch error, and
less continues decoding records of this page. -/
theorem pageLoop_boundary_check (v : Version) (want : Record → Bool)
    (pLen fuel read : Nat) (input rest : List Nat) (s : Nat) (rec : Record)
    (h : parseRecord v.hasNodeId v.hasUnknownNum input = .ok (some (s, rec), rest)) :
    (read + s = pLen →
      pageLoop v want pLen (fuel + 1) read input =
        .ok (read + s, if want rec then [rec] else [], rest)) ∧
    (read + s > pLen →
      pageLoop v want pLen (fuel + 1) read input = .error .lengthMismatch) ∧
    (read + s < pLen →
      pageLoop v want pLen (fuel + 1) read input =
        if want rec then
          match pageLoop v want pLen fuel (read + s) rest with
          | .error e => .error e
          | .ok (r, recs, rest') => .ok (r, rec :: recs, rest')
        else pageLoop v want pLen fuel (read + s) rest) := by
  refine ⟨?_, ?_, ?_⟩ <;> intro hcmp <;> rw [pageLoop, h] <;> dsimp only
  · rw [if_pos (by omega), if_pos hcmp]
  · rw [if_pos (by omega), if_neg (by omega)]
  · rw [if_neg (by omega)]

/-- Witness for C3 at the page-closing boundary: one concrete version-1
record of 14 bytes with the consumed count seeded at 12 and a declared
page length of 26. -/
theorem pageLoop_boundary_check_witness :
    pageLoop .Ver1 (fun _ => true) 26 1 12 (encodeRecord .Ver1 [47] 1 0 0 0) =
      .ok (26, [{ path := [47], event_id := 1, flag := 0, flags := "",
                  node_id := none, file_timestamp := none }], []) := by
  have h : parseRecord Version.Ver1.hasNodeId Version.Ver1.hasUnknownNum
      (encodeRecord .Ver1 [47] 1 0 0 0) =
        .ok (some (14, { path := [47], event_id := 1, flag := 0, flags := "",
                         node_id := none, file_timestamp := none }), []) := by rfl
  have hc := (pageLoop_boundary_check .Ver1 (fun _ => true) 26 0 12
    (encodeRecord .Ver1 [47] 1 0 0 0) [] 14 _ h).1 (by norm_num)
  simpa using hc

/-- C9: reading a page header consumes exactly 4 tag bytes; the tags
"1SLD", "2SLD", "3SLD" map to versions 1, 2, 3; and any other 4-byte tag
makes `parse_file` return the fatal unsupported-version error for the
whole file instead of skipping the page. -/
theorem pageHeader_version_mapping :
    (∀ input : List Nat, 4 ≤ input.length →
      versionFromReader input = some (versionFromBytes (input.take 4), input.drop 4)) ∧
    (versionFromBytes [0x31, 0x53, 0x4C, 0x44] = some .Ver1 ∧
     versionFromBytes [0x32, 0x53, 0x4C, 0x44] = some .Ver2 ∧
     versionFromBytes [0x33, 0x53, 0x4C, 0x44] = some .Ver3) ∧
    (∀ (want : Record → Bool) (input : List Nat), 4 ≤ input.length →
      versionFromBytes (input.take 4) = none →
      parseFile want input = .error .unsupportedVersion) := by
  refine ⟨?_, by decide, ?_⟩
  · intro input hlen
    simp [versionFromReader, readExact, hlen]
  · intro want input hlen hnone
    have hvr : versionFromReader input = some (none, input.drop 4) := by
      simp [versionFromReader, readExact, hlen, hnone]
    show fileLoop want (input.length + 1) input = .error .unsupportedVersion
    rw [fileLoop, hvr]

/-- Witness for C9: the unknown tag "4SLD" makes `parse_file` abort with
the unsupported-version error. -/
theorem pageHeader_version_mapping_witness :
    versionFromReader [0x34, 0x53, 0x4C, 0x44] =
      some (versionFromBytes (([0x34, 0x53, 0x4C, 0x44] : List Nat).take 4),
        ([0x34, 0x53, 0x4C, 0x44] : List Nat).drop 4) ∧
    parseFile (fun _ => true) [0x34, 0x53, 0x4C, 0x44] = .error .unsupportedVersion :=
  ⟨pageHeader_version_mapping.1 [0x34, 0x53, 0x4C, 0x44] (by norm_num),
   pageHeader_version_mapping.2.2 (fun _ => true) [0x34, 0x53, 0x4C, 0x44]
     (by norm_num) (by decide)⟩

/-! Spec-side well-formed page fixtures used to state C2 (end of stream
at page boundaries versus truncation inside a page). -/

/-- Field values of one record, for building byte streams. -/
structure RecSpec where
  path : List Nat
  eid : Nat
  flag : Nat
  nid : Nat
  extra : Nat
deriving Repr, DecidableEq

/-- The record's byte encoding for version `v`. -/
def RecSpec.encode (v : Version) (r : RecSpec) : List Nat :=
  encodeRecord v r.path r.eid r.flag r.nid r.extra

/-- Well-formedness of the fixture: no NUL inside the path, and the
field values fit their on-disk widths. -/
def RecSpec.wf (r : RecSpec) : Prop :=
  (∀ b ∈ r.path, b ≠ 0) ∧ r.eid < 2 ^ 64 ∧ r.flag < 2 ^ 32 ∧ r.nid < 2 ^ 64

/-- The record obtained by decoding `RecSpec.encode`. -/
def RecSpec.decode (v : Version) (r : RecSpec) : Record :=
  { path := r.path
    event_id := r.eid
    flag := r.flag
    flags := parseBits r.flag
    node_id := if v.hasNodeId then some r.nid else none
    file_timestamp := none }

/-- Concatenated record encodings forming a page body. -/
def pageBody (v : Version) (rs : List RecSpec) : List Nat :=
  (rs.map (RecSpec.encode v)).flatten

/-- A complete page: version tag, 4 reserved bytes, 4-byte little-endian
declared length (12-byte header plus body), body. -/
def encodePage (v : Version) (reserved : List Nat) (rs : List RecSpec) : List Nat :=
  v.tag ++ reserved ++ leBytes 4 (12 + (pageBody v rs).length) ++ pageBody v rs

/-- One page of a test stream. -/
structure PageSpec where
  ver : Version
  reserved : List Nat
  recs : List RecSpec

/-- A well-formed page: 4 reserved bytes, at least one record (the source
checks the page length only after decoding a record, so an empty declared
body would read into the next page), well-formed records, and a declared
length that fits in a u32. -/
def PageSpec.wf (p : PageSpec) : Prop :=
  p.reserved.length = 4 ∧ p.recs ≠ [] ∧ (∀ r ∈ p.recs, r.wf) ∧
    12 + (pageBody p.ver p.recs).length < 2 ^ 32

/-- The page's byte encoding. -/
def PageSpec.encode (p : PageSpec) : List Nat := encodePage p.ver p.reserved p.recs

/-- A stream of consecutive pages. -/
def encodeStream (ps : List PageSpec) : List Nat := (ps.map PageSpec.encode).flatten

/-- The page's records that the filter accepts, in order. -/
def PageSpec.broadcasts (want : Record → Bool) (p : PageSpec) : List Record :=
  (p.recs.map (RecSpec.decode p.ver)).filter want

theorem pageBody_nil (v : Version) : pageBody v [] = [] := rfl

theorem pageBody_cons (v : Version) (r : RecSpec) (rs : List RecSpec) :
    pageBody v (r :: rs) = RecSpec.encode v r ++ pageBody v rs := by
  simp [pageBody]

theorem encodeRecord_length (v : Version) (path : List Nat) (eid flag nid extra : Nat) :
    (encodeRecord v path eid flag nid extra).length = recordSize v path.length := by
  cases v <;>
    simp [encodeRecord, recordSize, Version.hasNodeId, Version.hasUnknownNum,
      beBytes_length, leBytes_length]

theorem recSpec_encode_length (v : Version) (r : RecSpec) :
    (RecSpec.encode v r).length = recordSize v r.path.length :=
  encodeRecord_length v r.path r.eid r.flag r.nid r.extra

theorem recordSize_ge (v : Version) (n : Nat) : 13 ≤ recordSize v n := by
  cases v <;> simp [recordSize, Version.hasNodeId, Version.hasUnknownNum]

theorem parseRecord_recSpec (v : Version) (r : RecSpec) (rest : List Nat) (h : r.wf) :
    parseRecord v.hasNodeId v.hasUnknownNum (RecSpec.encode v r ++ rest) =
      .ok (some (recordSize v r.path.length, RecSpec.decode v r), rest) := by
  obtain ⟨h1, h2, h3, h4⟩ := h
  exact (parseRecord_decode v r.path r.eid r.flag r.nid r.extra rest h1 h2 h3 h4).1

theorem pageLoop_complete (v : Version) (want : Record → Bool) (pLen : Nat) :
    ∀ (rs : List RecSpec), rs ≠ [] → (∀ r ∈ rs, r.wf) →
      ∀ (after : List Nat) (read fuel : Nat),
        read + (pageBody v rs).length = pLen →
        (pageBody v rs ++ after).length < fuel →
        pageLoop v want pLen fuel read (pageBody v rs ++ after) =
          .ok (pLen, (rs.map (RecSpec.decode v)).filter want, after) := by
  intro rs
  induction rs with
  | nil => intro hne; exact absurd rfl hne
  | cons r rs ih =>
    intro _ hwf after read fuel hread hfuel
    have hr : r.wf := hwf r (List.mem_cons_self _ _)
    have hsz : (RecSpec.encode v r).length = recordSize v r.path.length :=
      recSpec_encode_length v r
    have hsz13 : 13 ≤ recordSize v r.path.length := recordSize_ge v _
    obtain ⟨fuel, rfl⟩ : ∃ f, fuel = f + 1 := ⟨fuel - 1, by omega⟩
    rw [pageBody_cons] at hread hfuel ⊢
    rw [List.append_assoc]
    rw [pageLoop, parseRecord_recSpec v r _ hr]
    dsimp only
    simp only [List.length_append] at hread hfuel
    cases rs with
    | nil =>
      rw [pageBody_nil] at hread hfuel ⊢
      simp only [List.length_nil, List.nil_append] at hread hfuel ⊢
      have hcl : read + recordSize v r.path.length = pLen := by omega
      rw [if_pos (by omega), if_pos hcl, hcl]
      cases hw : want (RecSpec.decode v r) <;> simp [hw]
    | cons r2 rs2 =>
      have hb2 : 13 ≤ (pageBody v (r2 :: rs2)).length := by
        rw [pageBody_cons]
        have := recordSize_ge v r2.path.length
        have := recSpec_encode_length v r2
        simp only [List.length_append]
        omega
      rw [if_neg (by omega)]
      have ihres := ih (by simp) (fun q hq => hwf q (List.mem_cons_of_mem _ hq)) after
        (read + recordSize v r.path.length) fuel (by omega)
        (by simp only [List.length_append] at hfuel ⊢; omega)
      cases hw : want (RecSpec.decode v r)
      · rw [if_neg (by simp [hw]), ihres]
        simp [hw]
      · rw [if_pos (by simp [hw]), ihres]
        simp [hw]

theorem pageLoop_stops (v : Version) (want : Record → Bool) (pLen : Nat) :
    ∀ (rs0 : List RecSpec), (∀ r ∈ rs0, r.wf) →
      ∀ (tail : List Nat) (read fuel : Nat),
        (pageBody v rs0 ++ tail).length < fuel →
        read + (pageBody v rs0).length < pLen →
        (∀ e, parseRecord v.hasNodeId v.hasUnknownNum tail = .error e →
          pageLoop v want pLen fuel read (pageBody v rs0 ++ tail) = .error e) ∧
        (∀ restN, parseRecord v.hasNodeId v.hasUnknownNum tail = .ok (none, restN) →
          pageLoop v want pLen fuel read (pageBody v rs0 ++ tail) =
            .ok (read + (pageBody v rs0).length,
              (rs0.map (RecSpec.decode v)).filter want, restN)) := by
  intro rs0
  induction rs0 with
  | nil =>
    intro _ tail read fuel hfuel hlt
    rw [pageBody_nil] at hfuel hlt ⊢
    simp only [List.nil_append, List.length_nil] at hfuel hlt ⊢
    obtain ⟨fuel, rfl⟩ : ∃ f, fuel = f + 1 := ⟨fuel - 1, by omega⟩
    constructor
    · intro e he
      rw [pageLoop, he]
    · intro restN hn
      rw [pageLoop, hn]
      simp
  | cons r rs0 ih =>
    intro hwf tail read fuel hfuel hlt
    have hr : r.wf := hwf r (List.mem_cons_self _ _)
    have hsz : (RecSpec.encode v r).length = recordSize v r.path.length :=
      recSpec_encode_length v r
    have hsz13 : 13 ≤ recordSize v r.path.length := recordSize_ge v _
    obtain ⟨fuel, rfl⟩ : ∃ f, fuel = f + 1 := ⟨fuel - 1, by omega⟩
    rw [pageBody_cons] at hfuel hlt ⊢
    simp only [List.length_append] at hfuel hlt
    have hfuel' : (pageBody v rs0 ++ tail).length < fuel := by
      simp only [List.length_append] at hfuel ⊢
      omega
    have hlt' : (read + recordSize v r.path.length) + (pageBody v rs0).length < pLen := by
      omega
    have ihres := ih (fun q hq => hwf q (List.mem_cons_of_mem _ hq)) tail
      (read + recordSize v r.path.length) fuel hfuel' hlt'
    constructor
    · intro e he
      rw [List.append_assoc, pageLoop, parseRecord_recSpec v r _ hr]
      dsimp only
      rw [if_neg (by omega)]
      cases hw : want (RecSpec.decode v r)
      · rw [if_neg (by simp [hw]), ihres.1 e he]
      · rw [if_pos (by simp [hw]), ihres.1 e he]
    · intro restN hn
      rw [List.append_assoc, pageLoop, parseRecord_recSpec v r _ hr]
      dsimp only
      rw [if_neg (by omega)]
      cases hw : want (RecSpec.decode v r)
      · rw [if_neg (by simp [hw]), ihres.2 restN hn]
        simp [hw]
        omega
      · rw [if_pos (by simp [hw]), ihres.2 restN hn]
        simp [hw]
        omega

/-- `read_exact` lifted reads succeed exactly on long-enough input. -/
theorem readExactE_ok (n : Nat) (bs : List Nat) (h : n ≤ bs.length) :
    readExactE n bs = .ok (bs.take n, bs.drop n) := by
  simp [readExactE, readExact, h]

theorem readExactE_err (n : Nat) (bs : List Nat) (h : bs.length < n) :
    readExactE n bs = .error .unexpectedEof := by
  unfold readExactE
  rw [readExact_none n bs h]

/-- A stream that ends at a record start or inside the path bytes (no NUL
read) makes `parse_record` return the end-of-records signal `Ok(None)`
after consuming the rest of the stream. -/
theorem parseRecord_pathEof (hn hx : Bool) (tail : List Nat) (h : ∀ b ∈ tail, b ≠ 0) :
    parseRecord hn hx tail = .ok (none, []) := by
  unfold parseRecord
  rw [readUntil0_no_zero tail h]
  cases tail with
  | nil => rfl
  | cons b bs =>
    have hne : (b :: bs) ≠ [] := by simp
    have hlast : (b :: bs).getLast? = some ((b :: bs).getLast hne) :=
      List.getLast?_eq_getLast_of_ne_nil hne
    have hmem : (b :: bs).getLast hne ∈ b :: bs := List.getLast_mem hne
    have hz : (b :: bs).getLast hne ≠ 0 := h _ hmem
    rw [if_pos]
    · rfl
    · right
      rw [hlast]
      simp [hz]

/-- The number of fixed-width bytes `parse_record` reads after the path's
NUL terminator. -/
def fixedLen (v : Version) : Nat :=
  12 + (if v.hasNodeId then 8 else 0) + (if v.hasUnknownNum then 4 else 0)

/-- A stream that ends inside a record's fixed-width fields (after a
complete NUL-terminated path) makes `parse_record` fail with the
`UnexpectedEof` io error. -/
theorem parseRecord_truncated (v : Version) (path bs : List Nat)
    (hpath : ∀ b ∈ path, b ≠ 0) (hlen : bs.length < fixedLen v) :
    parseRecord v.hasNodeId v.hasUnknownNum (path ++ [0] ++ bs) =
      .error .unexpectedEof := by
  unfold parseRecord
  rw [readUntil0_append _ _ hpath]
  dsimp only
  rw [if_neg (by simp [List.getLast?_concat])]
  cases v with
  | Ver1 =>
    have hlen' : bs.length < 12 := by
      simp [fixedLen, Version.hasNodeId, Version.hasUnknownNum] at hlen
      omega
    by_cases h8 : bs.length < 8
    · have e1 := readExactE_err 8 bs h8
      simp [e1, bind, Except.bind, pure, Except.pure, Version.hasNodeId, Version.hasUnknownNum]
    · have e1 := readExactE_ok 8 bs (by omega)
      have e2 := readExactE_err 4 (bs.drop 8) (by simp [List.length_drop]; omega)
      simp [e1, e2, bind, Except.bind, pure, Except.pure, Version.hasNodeId, Version.hasUnknownNum]
  | Ver2 =>
    have hlen' : bs.length < 20 := by
      simp [fixedLen, Version.hasNodeId, Version.hasUnknownNum] at hlen
      omega
    by_cases h8 : bs.length < 8
    · have e1 := readExactE_err 8 bs h8
      simp [e1, bind, Except.bind, pure, Except.pure, Version.hasNodeId, Version.hasUnknownNum]
    · have e1 := readExactE_ok 8 bs (by omega)
      by_cases h12 : bs.length < 12
      · have e2 := readExactE_err 4 (bs.drop 8) (by simp [List.length_drop]; omega)
        simp [e1, e2, bind, Except.bind, pure, Except.pure, Version.hasNodeId, Version.hasUnknownNum]
      · have e2 := readExactE_ok 4 (bs.drop 8) (by simp [List.length_drop]; omega)
        have e3 := readExactE_err 8 (bs.drop 12) (by simp [List.length_drop]; omega)
        simp [e1, e2, e3, bind, Except.bind, pure, Except.pure, Version.hasNodeId, Version.hasUnknownNum]
  | Ver3 =>
    have hlen' : bs.length < 24 := by
      simp [fixedLen, Version.hasNodeId, Version.hasUnknownNum] at hlen
      omega
    by_cases h8 : bs.length < 8
    · have e1 := readExactE_err 8 bs h8
      simp [e1, bind, Except.bind, pure, Except.pure, Version.hasNodeId, Version.hasUnknownNum]
    · have e1 := readExactE_ok 8 bs (by omega)
      by_cases h12 : bs.length < 12
      · have e2 := readExactE_err 4 (bs.drop 8) (by simp [List.length_drop]; omega)
        simp [e1, e2, bind, Except.bind, pure, Except.pure, Version.hasNodeId, Version.hasUnknownNum]
      · have e2 := readExactE_ok 4 (bs.drop 8) (by simp [List.length_drop]; omega)
        by_cases h20 : bs.length < 20
        · have e3 := readExactE_err 8 (bs.drop 12) (by simp [List.length_drop]; omega)
          simp [e1, e2, e3, bind, Except.bind, pure, Except.pure, Version.hasNodeId, Version.hasUnknownNum]
        · have e3 := readExactE_ok 8 (bs.drop 12) (by simp [List.length_drop]; omega)
          have e4 := readExactE_err 4 (bs.drop 20) (by simp [List.length_drop]; omega)
          simp [e1, e2, e3, e4, bind, Except.bind, pure, Except.pure, Version.hasNodeId, Version.hasUnknownNum]

theorem versionTag_length (v : Version) : v.tag.length = 4 := by cases v <;> rfl

theorem versionFromBytes_tag (v : Version) : versionFromBytes v.tag = some v := by
  cases v <;> decide

theorem versionFromReader_tag (v : Version) (rest : List Nat) :
    versionFromReader (v.tag ++ rest) = some (some v, rest) := by
  have h := readExact_encoded 4 v.tag rest (versionTag_length v)
  simp [versionFromReader, h, versionFromBytes_tag]

theorem versionFromReader_nil : versionFromReader [] = none := by
  simp [versionFromReader, readExact]

theorem fileLoop_nil (want : Record → Bool) (fuel : Nat) :
    fileLoop want (fuel + 1) [] = .ok [] := by
  rw [fileLoop, versionFromReader_nil]

theorem readExactE_encoded (n : Nat) (bs rest : List Nat) (h : bs.length = n) :
    readExactE n (bs ++ rest) = .ok (bs, rest) := by
  unfold readExactE
  rw [readExact_encoded n bs rest h]

/-- Unfolds one iteration of the outer loop on a page header: consume the
tag, the reserved word and the little-endian length, then run the record
loop on the rest. -/
theorem fileLoop_header (want : Record → Bool) (fuel : Nat) (v : Version)
    (reserved : List Nat) (hres : reserved.length = 4) (pLen : Nat)
    (hp : pLen < 2 ^ 32) (body : List Nat) :
    fileLoop want (fuel + 1) (v.tag ++ reserved ++ leBytes 4 pLen ++ body) =
      match pageLoop v want pLen (body.length + 1) 12 body with
      | .error e => .error e
      | .ok (_, recs, rest3) =>
        match fileLoop want fuel rest3 with
        | .error e => .error e
        | .ok recs2 => .ok (recs ++ recs2) := by
  rw [fileLoop]
  have hassoc : v.tag ++ reserved ++ leBytes 4 pLen ++ body =
      v.tag ++ (reserved ++ (leBytes 4 pLen ++ body)) := by
    simp [List.append_assoc]
  rw [hassoc, versionFromReader_tag]
  dsimp only
  rw [readExactE_encoded 4 reserved _ hres]
  dsimp only
  rw [readExactE_encoded 4 (leBytes 4 pLen) _ (leBytes_length 4 pLen)]
  dsimp only
  have hlv : leVal (leBytes 4 pLen) = pLen := by
    rw [leVal_leBytes]
    have h4 : (256 : Nat) ^ 4 = 2 ^ 32 := by norm_num
    rw [h4]
    exact Nat.mod_eq_of_lt hp
  rw [hlv]

theorem pageSpec_encode_length (p : PageSpec) (hres : p.reserved.length = 4) :
    p.encode.length = 12 + (pageBody p.ver p.recs).length := by
  simp [PageSpec.encode, encodePage, versionTag_length, leBytes_length, hres]
  omega

/-- One well-formed page followed by an arbitrary rest: the loop closes
the page cleanly, broadcasts its filtered records, and continues on the
rest. -/
theorem fileLoop_page (want : Record → Bool) (p : PageSpec) (hwf : p.wf)
    (rest : List Nat) (fuel : Nat) :
    fileLoop want (fuel + 1) (p.encode ++ rest) =
      match fileLoop want fuel rest with
      | .error e => .error e
      | .ok recs2 => .ok (p.broadcasts want ++ recs2) := by
  obtain ⟨hres, hne, hwfr, hlen⟩ := hwf
  have hshape : p.encode ++ rest =
      p.ver.tag ++ p.reserved ++ leBytes 4 (12 + (pageBody p.ver p.recs).length) ++
        (pageBody p.ver p.recs ++ rest) := by
    simp [PageSpec.encode, encodePage, List.append_assoc]
  rw [hshape, fileLoop_header want fuel p.ver p.reserved hres _ hlen _]
  rw [pageLoop_complete p.ver want _ p.recs hne hwfr rest 12
    ((pageBody p.ver p.recs ++ rest).length + 1) rfl (by omega)]
  rfl

theorem fileLoop_stream_append (want : Record → Bool) :
    ∀ (ps : List PageSpec), (∀ p ∈ ps, p.wf) →
      ∀ (tail : List Nat) (fuel : Nat), (encodeStream ps ++ tail).length < fuel →
        fileLoop want fuel (encodeStream ps ++ tail) =
          match fileLoop want (fuel - ps.length) tail with
          | .error e => .error e
          | .ok recs2 => .ok ((ps.map (PageSpec.broadcasts want)).flatten ++ recs2) := by
  intro ps
  induction ps with
  | nil =>
    intro _ tail fuel _
    simp only [encodeStream, List.map_nil, List.flatten_nil, List.nil_append,
      List.length_nil, Nat.sub_zero]
    cases h : fileLoop want fuel tail <;> simp [h]
  | cons p ps ih =>
    intro hwf tail fuel hfuel
    have hp : p.wf := hwf p (List.mem_cons_self _ _)
    have hencl : 12 ≤ p.encode.length := by
      rw [pageSpec_encode_length p hp.1]
      omega
    have hstream : encodeStream (p :: ps) ++ tail = p.encode ++ (encodeStream ps ++ tail) := by
      simp [encodeStream, List.append_assoc]
    have hlenstream : (encodeStream (p :: ps) ++ tail).length =
        p.encode.length + (encodeStream ps ++ tail).length := by
      rw [hstream]
      simp
    obtain ⟨fuel, rfl⟩ : ∃ f, fuel = f + 1 := ⟨fuel - 1, by omega⟩
    rw [hstream, fileLoop_page want p hp _ fuel]
    rw [ih (fun q hq => hwf q (List.mem_cons_of_mem _ hq)) tail fuel (by omega)]
    have hf : fuel + 1 - (p :: ps).length = fuel - ps.length := by
      simp
    rw [hf]
    cases h2 : fileLoop want (fuel - ps.length) tail <;> simp [h2]

/-- A page whose stream is cut inside a record's fixed-width fields makes
the outer loop fail with the propagated `UnexpectedEof`. -/
theorem fileLoop_truncPage (want : Record → Bool) (fuel : Nat) (v : Version)
    (reserved : List Nat) (hres : reserved.length = 4) (pLen : Nat) (hp : pLen < 2 ^ 32)
    (rs0 : List RecSpec) (hwf0 : ∀ r ∈ rs0, r.wf)
    (hlt : 12 + (pageBody v rs0).length < pLen)
    (rpath bs : List Nat) (hrp : ∀ b ∈ rpath, b ≠ 0) (hbs : bs.length < fixedLen v) :
    fileLoop want (fuel + 1)
      (v.tag ++ reserved ++ leBytes 4 pLen ++ (pageBody v rs0 ++ (rpath ++ [0] ++ bs))) =
      .error .unexpectedEof := by
  rw [fileLoop_header want fuel v reserved hres pLen hp _]
  have herr := (pageLoop_stops v want pLen rs0 hwf0 (rpath ++ [0] ++ bs) 12
    ((pageBody v rs0 ++ (rpath ++ [0] ++ bs)).length + 1) (by omega) (by omega)).1
    .unexpectedEof (parseRecord_truncated v rpath bs hrp hbs)
  rw [herr]

/-- A page whose stream is cut at a record start or inside the path bytes
is treated as end of records; the loop then continues (here: with the
empty rest of the stream). -/
theorem fileLoop_pathEofPage (want : Record → Bool) (fuel : Nat) (v : Version)
    (reserved : List Nat) (hres : reserved.length = 4) (pLen : Nat) (hp : pLen < 2 ^ 32)
    (rs0 : List RecSpec) (hwf0 : ∀ r ∈ rs0, r.wf)
    (hlt : 12 + (pageBody v rs0).length < pLen)
    (tailPath : List Nat) (htp : ∀ b ∈ tailPath, b ≠ 0) :
    fileLoop want (fuel + 1)
      (v.tag ++ reserved ++ leBytes 4 pLen ++ (pageBody v rs0 ++ tailPath)) =
      match fileLoop want fuel [] with
      | .error e => .error e
      | .ok recs2 => .ok ((rs0.map (RecSpec.decode v)).filter want ++ recs2) := by
  rw [fileLoop_header want fuel v reserved hres pLen hp _]
  have hok := (pageLoop_stops v want pLen rs0 hwf0 tailPath 12
    ((pageBody v rs0 ++ tailPath).length + 1) (by omega) (by omega)).2
    [] (parseRecord_pathEof v.hasNodeId v.hasUnknownNum tailPath htp)
  rw [hok]

theorem encodeStream_length_ge (ps : List PageSpec) (h : ∀ p ∈ ps, p.wf) :
    ps.length ≤ (encodeStream ps).length := by
  induction ps with
  | nil => simp [encodeStream]
  | cons p ps ih =>
    have hp : p.wf := h p (List.mem_cons_self _ _)
    have h12 : 12 ≤ p.encode.length := by
      rw [pageSpec_encode_length p hp.1]
      omega
    have hstream : encodeStream (p :: ps) = p.encode ++ encodeStream ps := by
      simp [encodeStream]
    have := ih (fun q hq => h q (List.mem_cons_of_mem _ hq))
    rw [hstream]
    simp only [List.length_append, List.length_cons]
    omega

theorem headerChunk_length (v : Version) (reserved : List Nat) (hres : reserved.length = 4)
    (pLen : Nat) (x : List Nat) :
    (v.tag ++ reserved ++ leBytes 4 pLen ++ x).length = 12 + x.length := by
  simp [versionTag_length, leBytes_length, hres]
  omega

/-- C2 (amended): end of stream exactly at a page boundary makes
`parse_file` return `Ok`; a stream ending inside a record's fixed-width
fields (after the path's NUL terminator) makes `parse_file` return an
error; but a stream ending mid-page at a record start or inside the path
bytes (before any NUL is read) is treated as a natural end of input and
`parse_file` returns `Ok` even though the consumed count has not reached
the declared page length. -/
theorem parseFile_page_boundaries :
    (∀ (want : Record → Bool) (ps : List PageSpec), (∀ p ∈ ps, p.wf) →
      parseFile want (encodeStream ps) =
        .ok ((ps.map (PageSpec.broadcasts want)).flatten)) ∧
    (∀ (want : Record → Bool) (ps : List PageSpec), (∀ p ∈ ps, p.wf) →
      ∀ (v : Version) (reserved : List Nat), reserved.length = 4 →
        ∀ pLen : Nat, pLen < 2 ^ 32 →
          ∀ rs0 : List RecSpec, (∀ r ∈ rs0, r.wf) →
            12 + (pageBody v rs0).length < pLen →
            ∀ rpath bs : List Nat, (∀ b ∈ rpath, b ≠ 0) → bs.length < fixedLen v →
              parseFile want (encodeStream ps ++
                  (v.tag ++ reserved ++ leBytes 4 pLen ++
                    (pageBody v rs0 ++ (rpath ++ [0] ++ bs)))) =
                .error .unexpectedEof) ∧
    (∀ (want : Record → Bool) (ps : List PageSpec), (∀ p ∈ ps, p.wf) →
      ∀ (v : Version) (reserved : List Nat), reserved.length = 4 →
        ∀ pLen : Nat, pLen < 2 ^ 32 →
          ∀ rs0 : List RecSpec, (∀ r ∈ rs0, r.wf) →
            12 + (pageBody v rs0).length < pLen →
            ∀ tailPath : List Nat, (∀ b ∈ tailPath, b ≠ 0) →
              parseFile want (encodeStream ps ++
                  (v.tag ++ reserved ++ leBytes 4 pLen ++ (pageBody v rs0 ++ tailPath))) =
                .ok ((ps.map (PageSpec.broadcasts want)).flatten ++
                  (rs0.map (RecSpec.decode v)).filter want)) := by
  have hex1 : ∀ a b : Nat, b + 1 ≤ a → ∃ k, a - b = k + 1 :=
    fun a b h => ⟨a - b - 1, by omega⟩
  have hex2 : ∀ a b : Nat, b + 2 ≤ a → ∃ k, a - b = k + 2 :=
    fun a b h => ⟨a - b - 2, by omega⟩
  refine ⟨?_, ?_, ?_⟩
  · intro want ps hwf
    have hlen := encodeStream_length_ge ps hwf
    rw [parseFile]
    rw [show encodeStream ps = encodeStream ps ++ [] from (List.append_nil _).symm]
    have happ := fileLoop_stream_append want ps hwf [] ((encodeStream ps ++ []).length + 1)
      (by omega)
    rw [happ]
    obtain ⟨k, hk⟩ :=
      hex1 ((encodeStream ps ++ []).length + 1) ps.length (by simp only [List.append_nil]; omega)
    rw [hk, fileLoop_nil]
    simp
  · intro want ps hwf v reserved hres pLen hp rs0 hwf0 hlt rpath bs hrp hbs
    have hlen := encodeStream_length_ge ps hwf
    have htail := headerChunk_length v reserved hres pLen
      (pageBody v rs0 ++ (rpath ++ [0] ++ bs))
    have hTot : (encodeStream ps ++
        (v.tag ++ reserved ++ leBytes 4 pLen ++
          (pageBody v rs0 ++ (rpath ++ [0] ++ bs)))).length =
        (encodeStream ps).length +
          (v.tag ++ reserved ++ leBytes 4 pLen ++
            (pageBody v rs0 ++ (rpath ++ [0] ++ bs))).length := by
      simp
    rw [parseFile]
    rw [fileLoop_stream_append want ps hwf _ _ (by omega)]
    obtain ⟨k, hk⟩ :=
      hex1 ((encodeStream ps ++
        (v.tag ++ reserved ++ leBytes 4 pLen ++
          (pageBody v rs0 ++ (rpath ++ [0] ++ bs)))).length + 1) ps.length (by omega)
    rw [hk, fileLoop_truncPage want k v reserved hres pLen hp rs0 hwf0 hlt rpath bs hrp hbs]
  · intro want ps hwf v reserved hres pLen hp rs0 hwf0 hlt tailPath htp
    have hlen := encodeStream_length_ge ps hwf
    have htail := headerChunk_length v reserved hres pLen (pageBody v rs0 ++ tailPath)
    have hTot : (encodeStream ps ++
        (v.tag ++ reserved ++ leBytes 4 pLen ++ (pageBody v rs0 ++ tailPath))).length =
        (encodeStream ps).length +
          (v.tag ++ reserved ++ leBytes 4 pLen ++ (pageBody v rs0 ++ tailPath)).length := by
      simp
    rw [parseFile]
    rw [fileLoop_stream_append want ps hwf _ _ (by omega)]
    obtain ⟨k, hk⟩ :=
      hex2 ((encodeStream ps ++
        (v.tag ++ reserved ++ leBytes 4 pLen ++ (pageBody v rs0 ++ tailPath))).length + 1)
        ps.length (by omega)
    rw [hk, fileLoop_pathEofPage want (k + 1) v reserved hres pLen hp rs0 hwf0 hlt tailPath htp]
    rw [fileLoop_nil]
    simp

instance (r : RecSpec) : Decidable r.wf :=
  decidable_of_iff
    ((∀ b ∈ r.path, b ≠ 0) ∧ r.eid < 2 ^ 64 ∧ r.flag < 2 ^ 32 ∧ r.nid < 2 ^ 64) Iff.rfl

instance (p : PageSpec) : Decidable p.wf :=
  decidable_of_iff
    (p.reserved.length = 4 ∧ p.recs ≠ [] ∧ (∀ r ∈ p.recs, r.wf) ∧
      12 + (pageBody p.ver p.recs).length < 2 ^ 32) Iff.rfl

/-- Witness for C2 (amended): one complete single-record page parses to
`Ok`; a page declaring length 20 cut inside the fixed fields (path "/",
NUL, then only 2 of the 12 fixed bytes) gives the `UnexpectedEof` error;
the same header cut during the path bytes gives `Ok`. -/
theorem parseFile_page_boundaries_witness :
    parseFile (fun _ => true)
        (encodeStream [⟨.Ver1, [7, 7, 7, 7], [⟨[47], 1, 0, 0, 0⟩]⟩]) =
      .ok ((([⟨.Ver1, [7, 7, 7, 7], [⟨[47], 1, 0, 0, 0⟩]⟩] :
          List PageSpec).map (PageSpec.broadcasts (fun _ => true))).flatten) ∧
    parseFile (fun _ => true)
        (encodeStream [] ++ (Version.Ver1.tag ++ [7, 7, 7, 7] ++ leBytes 4 20 ++
          (pageBody .Ver1 [] ++ ([47] ++ [0] ++ [9, 9])))) = .error .unexpectedEof ∧
    parseFile (fun _ => true)
        (encodeStream [] ++ (Version.Ver1.tag ++ [7, 7, 7, 7] ++ leBytes 4 20 ++
          (pageBody .Ver1 [] ++ [47]))) =
      .ok ((([] : List PageSpec).map (PageSpec.broadcasts (fun _ => true))).flatten ++
        (([] : List RecSpec).map (RecSpec.decode .Ver1)).filter (fun _ => true)) := by
  refine ⟨?_, ?_, ?_⟩
  · exact parseFile_page_boundaries.1 (fun _ => true) _ (by decide)
  · exact parseFile_page_boundaries.2.1 (fun _ => true) [] (by decide) .Ver1 [7, 7, 7, 7]
      (by decide) 20 (by norm_num) [] (by decide) (by decide) [47] [9, 9] (by decide) (by decide)
  · exact parseFile_page_boundaries.2.2 (fun _ => true) [] (by decide) .Ver1 [7, 7, 7, 7]
      (by decide) 20 (by norm_num) [] (by decide) (by decide) [47] (by decide)

/-- Counterexample to C2 as stated: this stream opens a page declaring
length 20 but ends mid-page after the 12-byte header plus one path byte
(consumed 12 < 20, no NUL terminator read), yet `parse_file` returns
`Ok` with no broadcast records instead of an error. -/
theorem parseFile_midpage_eof_ok :
    parseFile (fun _ => true)
      [0x31, 0x53, 0x4C, 0x44, 7, 7, 7, 7, 20, 0, 0, 0, 47] = .ok [] := by rfl

/-- C6: for every bitmask, `bits_to_str` renders exactly the known flag
names whose bits are set, in the fixed declaration order of the flag
table, joined by the fixed separator; `parse_bits` (the cache-backed
entry point) always returns that same text; and the zero bitmask renders
to the empty string. -/
theorem bitsToStr_spec (bits : Nat) :
    bitsToStr bits = joinSep (setFlags bits FLAGS) ∧
    parseBits bits = bitsToStr bits ∧
    bitsToStr 0 = "" ∧ parseBits 0 = "" := by
  refine ⟨?_, parseBits_eq_bitsToStr bits, by decide, by decide⟩
  exact bitsToStrAux_empty_acc bits FLAGS flags_names_ne_empty

/-- C10: flag-name resolution used when constructing a `RecordFilter` is
ASCII case-insensitive: every ASCII case variant of a table entry's name
resolves to that entry's bit value, and a string matching no entry
(ignoring ASCII case) resolves to `None`. -/
theorem flagId_case_insensitive :
    (∀ name bits, (name, bits) ∈ FLAGS →
      ∀ s, lowerStr s = lowerStr name → flagId s = some bits) ∧
    (∀ s, (∀ p ∈ FLAGS, lowerStr s ≠ lowerStr p.1) → flagId s = none) := by
  constructor
  · intro name bits hmem s hs
    exact findSome_flag FLAGS flags_lower_distinct name bits hmem s hs
  · intro s hnm
    exact findSome_flag_none FLAGS s hnm

/-- Witness for C10: a mixed-case variant of "Modified" resolves to its
bit, and an unknown name resolves to `None`. -/
theorem flagId_case_insensitive_witness :
    flagId "mOdIfIeD" = some 0x10000000 ∧ flagId "NotAFlag" = none := by
  constructor
  · exact flagId_case_insensitive.1 "Modified" 0x10000000 (by decide) "mOdIfIeD" (by decide)
  · exact flagId_case_insensitive.2 "NotAFlag" (by decide)

/-! ### src/uniques.rs and src/main.rs (`write_uniqs`) -/

/-- Embeds `uniques::UniqueCounts` (the `jiff::Timestamp`s are modelled
as integers). -/
structure UniqueCounts where
  counts : Nat
  flags : Nat
  earliest_timestamp : Option Int
  latest_timestamp : Option Int
deriving Repr, DecidableEq

/-- `UniqueCounts::default()`. -/
def UniqueCounts.init : UniqueCounts :=
  { counts := 0, flags := 0, earliest_timestamp := none, latest_timestamp := none }

/-- Embeds `UniqueCounts::update`: increment the count, OR the flag bits
into the accumulator, and, when a file timestamp is supplied, track the
earliest and latest values (both initialized on first sight; the
mixed-one-`Some` arm mirrors the source's defensive fallback). -/
def UniqueCounts.update (u : UniqueCounts) (flag : Nat) (fileTimestamp : Option Int) :
    UniqueCounts :=
  let u' := { u with counts := u.counts + 1, flags := u.flags ||| flag }
  match fileTimestamp with
  | none => u'
  | some ts =>
    match u'.earliest_timestamp, u'.latest_timestamp with
    | none, none =>
      { u' with earliest_timestamp := some ts, latest_timestamp := some ts }
    | some e, some l =>
      { u' with
        earliest_timestamp := if ts < e then some ts else some e
        latest_timestamp := if ts > l then some ts else some l }
    | _, _ =>
      { u' with earliest_timestamp := some ts, latest_timestamp := some ts }

/-- Byte-wise lexicographic strict order on paths: the ordering a
`BTreeMap<String, UniqueCounts>` sorts its keys by (Rust `String` order
is byte-lexicographic on the UTF-8 bytes). -/
def bytesLt : List Nat → List Nat → Bool
  | [], [] => false
  | [], _ :: _ => true
  | _ :: _, [] => false
  | a :: as, b :: bs => if a < b then true else if b < a then false else bytesLt as bs

/-- `u.entry(path).or_insert_with(default).update(flag, ts)`: the BTreeMap
is modelled as an association list kept in ascending key order. -/
def btreeUpdate (m : List (List Nat × UniqueCounts)) (k : List Nat) (flag : Nat)
    (ts : Option Int) : List (List Nat × UniqueCounts) :=
  match m with
  | [] => [(k, UniqueCounts.init.update flag ts)]
  | (k', v) :: rest =>
    if bytesLt k k' then (k, UniqueCounts.init.update flag ts) :: (k', v) :: rest
    else if k = k' then (k', v.update flag ts) :: rest
    else (k', v) :: btreeUpdate rest k flag ts

/-- Embeds `main::write_uniqs`: fold the records the filter accepts into
per-path aggregates; the output rows follow the map's ascending key
order, i.e. the resulting association list in order (`into_unique_out`
only reformats each row).  The main.rs snapshot calls `update(rec.flag)`;
it is completed with the record's `file_timestamp` to match
`UniqueCounts::update`'s signature in src/uniques.rs (the decoder always
sets `file_timestamp` to `None`, so the two coincide on every decoded
record). -/
def writeUniqs (filter : Record → Bool) (recs : List Record) :
    List (List Nat × UniqueCounts) :=
  recs.foldl
    (fun m rec =>
      if filter rec then btreeUpdate m rec.path rec.flag rec.file_timestamp else m) []

/-- Lookup in the association-list map. -/
def mapFind (m : List (List Nat × UniqueCounts)) (k : List Nat) : Option UniqueCounts :=
  match m with
  | [] => none
  | (k', v) :: rest => if k = k' then some v else mapFind rest k

/-- The map invariant: keys strictly ascending in byte order. -/
def SortedMap (m : List (List Nat × UniqueCounts)) : Prop :=
  m.Pairwise fun p q => bytesLt p.1 q.1 = true

theorem bytesLt_irrefl (a : List Nat) : bytesLt a a = false := by
  induction a with
  | nil => rfl
  | cons x xs ih => simp [bytesLt, ih]

theorem bytesLt_trans :
    ∀ a b c : List Nat, bytesLt a b = true → bytesLt b c = true → bytesLt a c = true
  | [], [], _, hab, _ => by simp [bytesLt] at hab
  | [], _ :: _, [], _, hbc => by simp [bytesLt] at hbc
  | [], _ :: _, _ :: _, _, _ => by simp [bytesLt]
  | _ :: _, [], _, hab, _ => by simp [bytesLt] at hab
  | _ :: _, _ :: _, [], _, hbc => by simp [bytesLt] at hbc
  | a :: as, b :: bs, c :: cs, hab, hbc => by
    simp only [bytesLt] at hab hbc ⊢
    by_cases h1 : a < b
    · by_cases h2 : b < c
      · simp [show a < c by omega]
      · simp only [if_neg h2] at hbc
        by_cases h3 : c < b
        · simp [h3] at hbc
        · have : b = c := by omega
          subst this
          simp [h1]
    · simp only [if_neg h1] at hab
      by_cases h4 : b < a
      · simp [h4] at hab
      · have hba : a = b := by omega
        subst hba
        simp only [if_neg h1, if_neg h4] at hab
        by_cases h2 : a < c
        · simp [h2]
        · simp only [if_neg h2] at hbc ⊢
          by_cases h3 : c < a
          · simp [h3] at hbc
          · simp only [if_neg h3] at hbc ⊢
            exact bytesLt_trans as bs cs hab hbc

theorem bytesLt_total (a b : List Nat) :
    a = b ∨ bytesLt a b = true ∨ bytesLt b a = true := by
  induction a generalizing b with
  | nil =>
    cases b with
    | nil => exact Or.inl rfl
    | cons y ys => exact Or.inr (Or.inl (by simp [bytesLt]))
  | cons x xs ih =>
    cases b with
    | nil => exact Or.inr (Or.inr (by simp [bytesLt]))
    | cons y ys =>
      by_cases hxy : x < y
      · exact Or.inr (Or.inl (by simp [bytesLt, hxy]))
      · by_cases hyx : y < x
        · exact Or.inr (Or.inr (by simp [bytesLt, hyx]))
        · have hx : x = y := by omega
          subst hx
          rcases ih ys with h | h | h
          · exact Or.inl (by rw [h])
          · exact Or.inr (Or.inl (by simp [bytesLt, h]))
          · exact Or.inr (Or.inr (by simp [bytesLt, h]))

theorem btreeUpdate_mem (m : List (List Nat × UniqueCounts)) (k : List Nat)
    (flag : Nat) (ts : Option Int) :
    ∀ q ∈ btreeUpdate m k flag ts, q.1 = k ∨ q ∈ m := by
  induction m with
  | nil =>
    intro q hq
    simp [btreeUpdate] at hq
    simp [hq]
  | cons p rest ih =>
    obtain ⟨k', v⟩ := p
    intro q hq
    by_cases h1 : bytesLt k k' = true
    · simp only [btreeUpdate, if_pos h1] at hq
      rcases List.mem_cons.mp hq with h | h
      · simp [h]
      · exact Or.inr h
    · by_cases h2 : k = k'
      · simp only [btreeUpdate, if_neg h1, if_pos h2] at hq
        rcases List.mem_cons.mp hq with h | h
        · subst h2
          simp [h]
        · exact Or.inr (List.mem_cons_of_mem _ h)
      · simp only [btreeUpdate, if_neg h1, if_neg h2] at hq
        rcases List.mem_cons.mp hq with h | h
        · exact Or.inr (by simp [h])
        · rcases ih q h with h' | h'
          · exact Or.inl h'
          · exact Or.inr (List.mem_cons_of_mem _ h')

theorem btreeUpdate_sorted (m : List (List Nat × UniqueCounts)) (k : List Nat)
    (flag : Nat) (ts : Option Int) (hs : SortedMap m) :
    SortedMap (btreeUpdate m k flag ts) := by
  induction m with
  | nil => simp [btreeUpdate, SortedMap]
  | cons p rest ih =>
    obtain ⟨k', v⟩ := p
    rw [SortedMap, List.pairwise_cons] at hs
    obtain ⟨hhd, htl⟩ := hs
    by_cases h1 : bytesLt k k' = true
    · rw [btreeUpdate]
      rw [if_pos h1]
      rw [SortedMap, List.pairwise_cons]
      constructor
      · intro q hq
        rcases List.mem_cons.mp hq with h | h
        · rw [h]
          exact h1
        · exact bytesLt_trans k k' q.1 h1 (hhd q h)
      · rw [List.pairwise_cons]
        exact ⟨hhd, htl⟩
    · by_cases h2 : k = k'
      · rw [btreeUpdate, if_neg h1, if_pos h2]
        rw [SortedMap, List.pairwise_cons]
        exact ⟨hhd, htl⟩
      · rw [btreeUpdate, if_neg h1, if_neg h2]
        rw [SortedMap, List.pairwise_cons]
        constructor
        · intro q hq
          rcases btreeUpdate_mem rest k flag ts q hq with h | h
          · rw [h]
            rcases bytesLt_total k k' with he | hl | hg
            · exact absurd he h2
            · exact absurd hl h1
            · exact hg
          · exact hhd q h
        · exact ih htl

theorem mapFind_none_of_absent (m : List (List Nat × UniqueCounts)) (p : List Nat)
    (h : ∀ q ∈ m, p ≠ q.1) : mapFind m p = none := by
  induction m with
  | nil => rfl
  | cons q rest ih =>
    obtain ⟨k', v⟩ := q
    have hne : p ≠ k' := h (k', v) (List.mem_cons_self _ _)
    rw [mapFind, if_neg hne]
    exact ih fun q hq => h q (List.mem_cons_of_mem _ hq)

theorem mapFind_btreeUpdate (m : List (List Nat × UniqueCounts)) (k : List Nat)
    (flag : Nat) (ts : Option Int) (hs : SortedMap m) (p : List Nat) :
    mapFind (btreeUpdate m k flag ts) p =
      if p = k then some (((mapFind m k).getD UniqueCounts.init).update flag ts)
      else mapFind m p := by
  induction m with
  | nil =>
    by_cases hp : p = k <;> simp [btreeUpdate, mapFind, hp]
  | cons q rest ih =>
    obtain ⟨k', v⟩ := q
    rw [SortedMap, List.pairwise_cons] at hs
    obtain ⟨hhd, htl⟩ := hs
    by_cases h1 : bytesLt k k' = true
    · have hknot : mapFind ((k', v) :: rest) k = none := by
        apply mapFind_none_of_absent
        intro q hq hkq
        rcases List.mem_cons.mp hq with h | h
        · rw [h] at hkq
          rw [hkq] at h1
          rw [bytesLt_irrefl] at h1
          exact Bool.false_ne_true h1
        · have := bytesLt_trans k k' q.1 h1 (hhd q h)
          rw [hkq, bytesLt_irrefl] at this
          exact Bool.false_ne_true this
      rw [btreeUpdate, if_pos h1]
      by_cases hp : p = k
      · rw [mapFind, if_pos hp, if_pos hp, hknot]
        rfl
      · rw [mapFind, if_neg hp, if_neg hp]
    · by_cases h2 : k = k'
      · subst h2
        rw [btreeUpdate, if_neg h1, if_pos rfl]
        by_cases hp : p = k
        · rw [mapFind, if_pos hp, if_pos hp, mapFind, if_pos rfl]
          rfl
        · rw [mapFind, if_neg hp, if_neg hp, mapFind, if_neg hp]
      · rw [btreeUpdate, if_neg h1, if_neg h2]
        by_cases hp : p = k'
        · have hpk : p ≠ k := by
            rw [hp]
            exact fun h => h2 h.symm
          rw [mapFind, if_pos hp, if_neg hpk, mapFind, if_pos hp]
        · have hfk : mapFind ((k', v) :: rest) k = mapFind rest k := by
            rw [mapFind, if_neg h2]
          have hfp : mapFind ((k', v) :: rest) p = mapFind rest p := by
            rw [mapFind, if_neg hp]
          rw [mapFind, if_neg hp, ih htl, hfk, hfp]

/-! Spec-side aggregate characterization used to state C8. -/

/-- Bitwise OR of the flag bitmasks of a record list. -/
def orFlags (l : List Record) : Nat := l.foldr (fun r acc => r.flag ||| acc) 0

/-- The supplied file timestamps of a record list, in order. -/
def tsList (l : List Record) : List Int := l.filterMap Record.file_timestamp

/-- One folding step of the running minimum. -/
def minStep (acc : Option Int) (t : Int) : Option Int :=
  match acc with
  | none => some t
  | some a => some (min a t)

/-- One folding step of the running maximum. -/
def maxStep (acc : Option Int) (t : Int) : Option Int :=
  match acc with
  | none => some t
  | some a => some (max a t)

/-- Minimum of a timestamp list (`none` when empty). -/
def minOf (l : List Int) : Option Int := l.foldl minStep none

/-- Maximum of a timestamp list (`none` when empty). -/
def maxOf (l : List Int) : Option Int := l.foldl maxStep none

/-- Applying `UniqueCounts::update` for every record of a list in order. -/
def applyAll (u : UniqueCounts) (l : List Record) : UniqueCounts :=
  l.foldl (fun u r => u.update r.flag r.file_timestamp) u

theorem applyAll_cons (u : UniqueCounts) (r : Record) (l : List Record) :
    applyAll u (r :: l) = applyAll (u.update r.flag r.file_timestamp) l := rfl

theorem foldl_minStep_some (l : List Int) (a : Int) :
    ∃ b, l.foldl minStep (some a) = some b := by
  induction l generalizing a with
  | nil => exact ⟨a, rfl⟩
  | cons t ts ih => exact ih (min a t)

theorem foldl_maxStep_some (l : List Int) (a : Int) :
    ∃ b, l.foldl maxStep (some a) = some b := by
  induction l generalizing a with
  | nil => exact ⟨a, rfl⟩
  | cons t ts ih => exact ih (max a t)

theorem minOf_append_single (seen : List Int) (t : Int) :
    minOf (seen ++ [t]) = minStep (minOf seen) t := by
  simp [minOf, List.foldl_append]

theorem maxOf_append_single (seen : List Int) (t : Int) :
    maxOf (seen ++ [t]) = maxStep (maxOf seen) t := by
  simp [maxOf, List.foldl_append]

theorem applyAll_char :
    ∀ (l : List Record) (u : UniqueCounts) (seen : List Int),
      u.earliest_timestamp = minOf seen → u.latest_timestamp = maxOf seen →
      applyAll u l =
        { counts := u.counts + l.length
          flags := u.flags ||| orFlags l
          earliest_timestamp := minOf (seen ++ tsList l)
          latest_timestamp := maxOf (seen ++ tsList l) } := by
  intro l
  induction l with
  | nil =>
    intro u seen he hl
    obtain ⟨c, fl, et, lt⟩ := u
    simp only at he hl
    simp [applyAll, orFlags, tsList, he, hl]
  | cons r l ih =>
    intro u seen he hl
    obtain ⟨c, fl, et, lt⟩ := u
    simp only at he hl
    rw [applyAll_cons]
    cases hts : r.file_timestamp with
    | none =>
      have hupd : UniqueCounts.update ⟨c, fl, et, lt⟩ r.flag none =
          ⟨c + 1, fl ||| r.flag, et, lt⟩ := rfl
      rw [hupd, ih ⟨c + 1, fl ||| r.flag, et, lt⟩ seen he hl]
      have h1 : tsList (r :: l) = tsList l := by simp [tsList, hts]
      have h2 : orFlags (r :: l) = r.flag ||| orFlags l := rfl
      simp only [h1, h2, List.length_cons, UniqueCounts.mk.injEq, Nat.lor_assoc,
        and_true, true_and]
      omega
    | some t =>
      have h1 : tsList (r :: l) = t :: tsList l := by simp [tsList, hts]
      cases seen with
      | nil =>
        simp only [minOf, maxOf, List.foldl_nil] at he hl
        subst he hl
        have hupd : UniqueCounts.update ⟨c, fl, none, none⟩ r.flag (some t) =
            ⟨c + 1, fl ||| r.flag, some t, some t⟩ := rfl
        rw [hupd, ih ⟨c + 1, fl ||| r.flag, some t, some t⟩ [t] rfl rfl]
        have h2 : orFlags (r :: l) = r.flag ||| orFlags l := rfl
        simp only [h1, h2, List.length_cons, UniqueCounts.mk.injEq, Nat.lor_assoc,
          List.singleton_append, List.nil_append, and_true, true_and]
        omega
      | cons s0 srest =>
        obtain ⟨e, hme⟩ := foldl_minStep_some srest s0
        obtain ⟨L, hML⟩ := foldl_maxStep_some srest s0
        have hmin : minOf (s0 :: srest) = some e := hme
        have hmax : maxOf (s0 :: srest) = some L := hML
        rw [hmin] at he
        rw [hmax] at hl
        subst he hl
        have hupd : UniqueCounts.update ⟨c, fl, some e, some L⟩ r.flag (some t) =
            ⟨c + 1, fl ||| r.flag,
              if t < e then some t else some e,
              if t > L then some t else some L⟩ := rfl
        have hminres : (if t < e then some t else some e) = minOf ((s0 :: srest) ++ [t]) := by
          rw [minOf_append_single, hmin]
          show _ = some (min e t)
          rcases lt_or_ge t e with h | h
          · rw [if_pos h, min_eq_right (le_of_lt h)]
          · rw [if_neg (by omega), min_eq_left h]
        have hmaxres : (if t > L then some t else some L) = maxOf ((s0 :: srest) ++ [t]) := by
          rw [maxOf_append_single, hmax]
          show _ = some (max L t)
          rcases lt_or_ge L t with h | h
          · rw [if_pos h, max_eq_right (le_of_lt h)]
          · rw [if_neg (by omega), max_eq_left h]
        rw [hupd, hminres, hmaxres,
          ih ⟨c + 1, fl ||| r.flag, minOf ((s0 :: srest) ++ [t]),
            maxOf ((s0 :: srest) ++ [t])⟩ ((s0 :: srest) ++ [t]) rfl rfl]
        have h2 : orFlags (r :: l) = r.flag ||| orFlags l := rfl
        have hl2 : (s0 :: srest) ++ [t] ++ tsList l = (s0 :: srest) ++ (t :: tsList l) := by
          simp
        simp only [h1, h2, hl2, List.length_cons, UniqueCounts.mk.injEq, Nat.lor_assoc,
          and_true, true_and]
        omega

theorem writeUniqs_fold_find (filter : Record → Bool) :
    ∀ (recs : List Record) (m : List (List Nat × UniqueCounts)), SortedMap m →
      ∀ p : List Nat,
        mapFind (recs.foldl (fun m rec =>
            if filter rec then btreeUpdate m rec.path rec.flag rec.file_timestamp else m) m) p =
          match mapFind m p with
          | some u => some (applyAll u (recs.filter fun q => filter q && decide (q.path = p)))
          | none =>
            if (recs.filter fun q => filter q && decide (q.path = p)) = [] then none
            else some (applyAll UniqueCounts.init
              (recs.filter fun q => filter q && decide (q.path = p))) := by
  intro recs
  induction recs with
  | nil =>
    intro m hs p
    simp only [List.foldl_nil, List.filter_nil]
    cases h : mapFind m p <;> simp [applyAll]
  | cons r recs ih =>
    intro m hs p
    rw [List.foldl_cons]
    by_cases hf : filter r = true
    · by_cases hpath : r.path = p
      · subst hpath
        have hfilter : ((r :: recs).filter fun q => filter q && decide (q.path = r.path)) =
            r :: recs.filter fun q => filter q && decide (q.path = r.path) := by
          simp [List.filter_cons, hf]
        rw [if_pos hf, hfilter,
          ih (btreeUpdate m r.path r.flag r.file_timestamp) (btreeUpdate_sorted m _ _ _ hs)
            r.path,
          mapFind_btreeUpdate m r.path r.flag r.file_timestamp hs r.path, if_pos rfl]
        cases hm : mapFind m r.path with
        | some u => simp [applyAll_cons]
        | none => simp [applyAll_cons]
      · have hfilter : ((r :: recs).filter fun q => filter q && decide (q.path = p)) =
            recs.filter fun q => filter q && decide (q.path = p) := by
          simp [List.filter_cons, hpath]
        rw [if_pos hf, hfilter,
          ih (btreeUpdate m r.path r.flag r.file_timestamp) (btreeUpdate_sorted m _ _ _ hs) p,
          mapFind_btreeUpdate m r.path r.flag r.file_timestamp hs p,
          if_neg (fun hh => hpath hh.symm)]
    · have hfilter : ((r :: recs).filter fun q => filter q && decide (q.path = p)) =
          recs.filter fun q => filter q && decide (q.path = p) := by
        simp [List.filter_cons, hf]
      rw [if_neg hf, hfilter, ih m hs p]

theorem writeUniqs_fold_sorted (filter : Record → Bool) :
    ∀ (recs : List Record) (m : List (List Nat × UniqueCounts)), SortedMap m →
      SortedMap (recs.foldl (fun m rec =>
        if filter rec then btreeUpdate m rec.path rec.flag rec.file_timestamp else m) m) := by
  intro recs
  induction recs with
  | nil => intro m hs; exact hs
  | cons r recs ih =>
    intro m hs
    rw [List.foldl_cons]
    by_cases hf : filter r = true
    · rw [if_pos hf]
      exact ih _ (btreeUpdate_sorted m _ _ _ hs)
    · rw [if_neg hf]
      exact ih m hs

theorem mapFind_eq_none_iff (m : List (List Nat × UniqueCounts)) (p : List Nat) :
    mapFind m p = none ↔ p ∉ m.map Prod.fst := by
  induction m with
  | nil => simp [mapFind]
  | cons q rest ih =>
    obtain ⟨k', v⟩ := q
    by_cases hp : p = k'
    · subst hp
      simp [mapFind]
    · rw [mapFind, if_neg hp, ih]
      simp [hp]

/-- Per-path characterization of the unique sink's fold (shared helper
behind the C8 statement and the C4 row lemmas). -/
theorem writeUniqs_find_char (filter : Record → Bool) (recs : List Record) (p : List Nat) :
    mapFind (writeUniqs filter recs) p =
      (if (recs.filter fun q => filter q && decide (q.path = p)) = [] then none
       else some
         { counts := (recs.filter fun q => filter q && decide (q.path = p)).length
           flags := orFlags (recs.filter fun q => filter q && decide (q.path = p))
           earliest_timestamp :=
             minOf (tsList (recs.filter fun q => filter q && decide (q.path = p)))
           latest_timestamp :=
             maxOf (tsList (recs.filter fun q => filter q && decide (q.path = p))) }) := by
  rw [writeUniqs, writeUniqs_fold_find filter recs [] (by simp [SortedMap]) p]
  show (match (none : Option UniqueCounts) with
    | some u => some (applyAll u (recs.filter fun q => filter q && decide (q.path = p)))
    | none =>
      if (recs.filter fun q => filter q && decide (q.path = p)) = [] then none
      else some (applyAll UniqueCounts.init
        (recs.filter fun q => filter q && decide (q.path = p)))) = _
  by_cases hfe : (recs.filter fun q => filter q && decide (q.path = p)) = []
  · simp [hfe]
  · rw [show (match (none : Option UniqueCounts) with
      | some u => some (applyAll u (recs.filter fun q => filter q && decide (q.path = p)))
      | none =>
        if (recs.filter fun q => filter q && decide (q.path = p)) = [] then none
        else some (applyAll UniqueCounts.init
          (recs.filter fun q => filter q && decide (q.path = p)))) =
      if (recs.filter fun q => filter q && decide (q.path = p)) = [] then none
      else some (applyAll UniqueCounts.init
        (recs.filter fun q => filter q && decide (q.path = p))) from rfl]
    rw [if_neg hfe, if_neg hfe]
    rw [applyAll_char (recs.filter fun q => filter q && decide (q.path = p))
      UniqueCounts.init [] rfl rfl]
    simp [UniqueCounts.init]

/-- C8: for every record sequence fed to the unique-path sink, each
distinct (accepted) path's aggregate has `counts` equal to the number of
records seen for that path, `flags` equal to the bitwise OR of their flag
bitmasks, and earliest/latest timestamps equal to the minimum and maximum
of the supplied file timestamps; feeding `{/a, Created}`, `{/a,
Modified}`, `{/b, Removed}` yields `/a ↦ count 2, Created|Modified` and
`/b ↦ count 1, Removed`. -/
theorem writeUniqs_aggregate :
    (∀ (filter : Record → Bool) (recs : List Record) (p : List Nat),
      mapFind (writeUniqs filter recs) p =
        (if (recs.filter fun q => filter q && decide (q.path = p)) = [] then none
         else some
           { counts := (recs.filter fun q => filter q && decide (q.path = p)).length
             flags := orFlags (recs.filter fun q => filter q && decide (q.path = p))
             earliest_timestamp :=
               minOf (tsList (recs.filter fun q => filter q && decide (q.path = p)))
             latest_timestamp :=
               maxOf (tsList (recs.filter fun q => filter q && decide (q.path = p))) })) ∧
    writeUniqs (fun _ => true)
        [{ path := [47, 97], event_id := 1, flag := 0x01000000,
           flags := parseBits 0x01000000, node_id := none, file_timestamp := none },
         { path := [47, 97], event_id := 2, flag := 0x10000000,
           flags := parseBits 0x10000000, node_id := none, file_timestamp := none },
         { path := [47, 98], event_id := 3, flag := 0x02000000,
           flags := parseBits 0x02000000, node_id := none, file_timestamp := none }] =
      [([47, 97], { counts := 2, flags := 0x11000000,
                    earliest_timestamp := none, latest_timestamp := none }),
       ([47, 98], { counts := 1, flags := 0x02000000,
                    earliest_timestamp := none, latest_timestamp := none })] := by
  exact ⟨fun filter recs p => writeUniqs_find_char filter recs p, by decide⟩

/-- C4 (amended): at stream end the unique sink emits exactly one output
row per distinct accepted path, and the rows are sorted by the raw path
bytes (byte-lexicographic, hence case-sensitive), not case-folded. -/
theorem writeUniqs_rows_sorted (filter : Record → Bool) (recs : List Record) :
    ((writeUniqs filter recs).map Prod.fst).Pairwise (fun a b => bytesLt a b = true) ∧
    ((writeUniqs filter recs).map Prod.fst).Nodup ∧
    (∀ p, p ∈ (writeUniqs filter recs).map Prod.fst ↔
      ∃ r ∈ recs, filter r = true ∧ r.path = p) := by
  have hsorted : SortedMap (writeUniqs filter recs) :=
    writeUniqs_fold_sorted filter recs [] (by simp [SortedMap])
  have hkeys : ((writeUniqs filter recs).map Prod.fst).Pairwise
      (fun a b => bytesLt a b = true) := by
    rw [List.pairwise_map]
    exact hsorted
  refine ⟨hkeys, ?_, ?_⟩
  · exact hkeys.imp fun hab heq => by
      subst heq
      rw [bytesLt_irrefl] at hab
      exact Bool.false_ne_true hab
  · intro p
    have hfind := writeUniqs_find_char filter recs p
    constructor
    · intro hmem
      have hne : mapFind (writeUniqs filter recs) p ≠ none := by
        rw [ne_eq, mapFind_eq_none_iff]
        simp [hmem]
      rw [hfind] at hne
      by_cases hfe : (recs.filter fun q => filter q && decide (q.path = p)) = []
      · rw [if_pos hfe] at hne
        exact absurd rfl hne
      · rcases List.exists_mem_of_ne_nil _ hfe with ⟨r, hr⟩
        have := List.of_mem_filter hr
        simp only [Bool.and_eq_true, decide_eq_true_eq] at this
        exact ⟨r, List.mem_of_mem_filter hr, this.1, this.2⟩
    · intro ⟨r, hrmem, hrf, hrp⟩
      by_contra hmem
      have hnone : mapFind (writeUniqs filter recs) p = none := by
        rw [mapFind_eq_none_iff]
        exact hmem
      rw [hfind] at hnone
      have hrfil : r ∈ recs.filter fun q => filter q && decide (q.path = p) := by
        apply List.mem_filter_of_mem hrmem
        simp [hrf, hrp]
      by_cases hfe : (recs.filter fun q => filter q && decide (q.path = p)) = []
      · rw [hfe] at hrfil
        simp at hrfil
      · rw [if_neg hfe] at hnone
        exact Option.some_ne_none _ hnone

/-- Spec-side ASCII case folding, used to state the ordering C4 claims
(the claim's "case-folded" comparison). -/
def caseFoldByte (b : Nat) : Nat := if 65 ≤ b ∧ b ≤ 90 then b + 32 else b

/-- Whether a key sequence is sorted under the case-folded byte order. -/
def foldedSorted : List (List Nat) → Bool
  | [] => true
  | [_] => true
  | x :: y :: r =>
    !bytesLt (y.map caseFoldByte) (x.map caseFoldByte) && foldedSorted (y :: r)

/-- Counterexample to C4 as stated: feeding paths "B" (byte 66) and "a"
(byte 97) produces rows ordered `["B", "a"]` (raw byte order), which is
not sorted under the case-folded comparison, since case-folded "a" sorts
before case-folded "B". -/
theorem writeUniqs_not_casefolded :
    ((writeUniqs (fun _ => true)
        [{ path := [66], event_id := 0, flag := 0, flags := "",
           node_id := none, file_timestamp := none },
         { path := [97], event_id := 0, flag := 0, flags := "",
           node_id := none, file_timestamp := none }]).map Prod.fst = [[66], [97]]) ∧
    foldedSorted ((writeUniqs (fun _ => true)
        [{ path := [66], event_id := 0, flag := 0, flags := "",
           node_id := none, file_timestamp := none },
         { path := [97], event_id := 0, flag := 0, flags := "",
           node_id := none, file_timestamp := none }]).map Prod.fst) = false := by
  decide

end FseDump
